import Mathlib

/-!
Verification of the go-xeger random-string generator.

The Go package walks a parsed regular-expression syntax tree
(package regexp/syntax) and emits a string matching the pattern, using an
injected random source and a repetition cap.  The definitions below are a
shallow embedding of src/xeger.go (current implementation) and
src/unnamed/part_000 (the earlier implementation of the same package).

Modelling conventions:
- Runes / bytes are `Nat` code points; a generated string is a `List Nat`
  of code points (UTF-8 concatenation of fragments corresponds to list
  append of code-point sequences, so nothing is lost at this level).
- The random source `Source.Int63` is modelled as a stream `Nat → Int`:
  the value returned by the i-th call is `src i`.  The interface contract
  says values lie in `[0, 2^63)`; theorems take the lower bound as a
  hypothesis where they need it.
- Go `int` arithmetic is modelled with `Int` (no overflow occurs for the
  quantities involved: sums of class sizes and repetition counts are far
  below 2^63).  Go's `%` on `int` is truncated division remainder, which
  is `Int.tmod`.
- Fallible operations (runtime panics: division by zero in `randInt`,
  out-of-range indexing, negative capacity in `make`) are modelled with
  `Option`: `none` means the Go code panics.
-/

namespace Xeger

/-- The syntax-tree node type, one constructor per `regexp/syntax.Op`
used by the generator.  `opCharClass` carries the flat `Rune` list of
inclusive (low, high) pairs; the repetition, capture, concat and
alternate nodes carry the `Sub` child list exactly as the Go struct
does.  `opRepeat` carries `Min`/`Max` as Go ints (`Max = -1` means no
upper bound). -/
inductive Regexp where
  | opLiteral (rune : List Nat)
  | opCharClass (rune : List Nat)
  | opAnyCharNotNL
  | opAnyChar
  | opCapture (sub : List Regexp)
  | opStar (sub : List Regexp)
  | opPlus (sub : List Regexp)
  | opQuest (sub : List Regexp)
  | opRepeat (min : Int) (max : Int) (sub : List Regexp)
  | opConcat (sub : List Regexp)
  | opAlternate (sub : List Regexp)
  | opEmptyMatch
  | opNoMatch
  | opBeginLine
  | opEndLine
  | opBeginText
  | opEndText
  | opWordBoundary
  | opNoWordBoundary
deriving Repr

/-- Character table: the Go constant `digits` ("0123456789") as byte values. -/
def digits : List Nat := [48, 49, 50, 51, 52, 53, 54, 55, 56, 57]

/-- Character table: the Go constant `ascii_lowercase`. -/
def ascii_lowercase : List Nat :=
  [97, 98, 99, 100, 101, 102, 103, 104, 105, 106, 107, 108, 109,
   110, 111, 112, 113, 114, 115, 116, 117, 118, 119, 120, 121, 122]

/-- Character table: the Go constant `ascii_uppercase`. -/
def ascii_uppercase : List Nat :=
  [65, 66, 67, 68, 69, 70, 71, 72, 73, 74, 75, 76, 77,
   78, 79, 80, 81, 82, 83, 84, 85, 86, 87, 88, 89, 90]

/-- Character table: the Go constant `ascii_letters` (lowercase ++ uppercase). -/
def ascii_letters : List Nat := ascii_lowercase ++ ascii_uppercase

/-- Character table: the Go constant `punctuation`
(" !\"#$%&'()*+,-./:;<=>?@[\\]^_`\x7b|\x7d~") as byte values. -/
def punctuation : List Nat :=
  [32, 33, 34, 35, 36, 37, 38, 39, 40, 41, 42, 43, 44, 45, 46, 47,
   58, 59, 60, 61, 62, 63, 64, 91, 92, 93, 94, 95, 96, 123, 124, 125, 126]

/-- Character table: the Go constant `control` (tab, vertical tab, form feed,
carriage return). -/
def control : List Nat := [9, 11, 12, 13]

/-- Character table: the Go constant `newline`. -/
def newline : List Nat := [10]

/-- The Go constant `printable`: digits + letters + punctuation + control +
newline, in that order. -/
def printable : List Nat := digits ++ ascii_letters ++ punctuation ++ control ++ newline

/-- The Go constant `printableNotNL`: `printable` without the newline. -/
def printableNotNL : List Nat := digits ++ ascii_letters ++ punctuation ++ control

/-- The Go constant `defaultLimit`. -/
def defaultLimit : Int := 10

/-- The method `randInt`: `int(x.source.Int63() % int64(n))`.
`v` is the value produced by the source.  Division by zero (n = 0) is a
runtime panic, modelled as `none`; Go's `%` on ints is truncated-division
remainder, i.e. `Int.tmod`. -/
def randInt (v : Int) (n : Int) : Option Int :=
  if n = 0 then none else some (Int.tmod v n)

/-- The accumulation loop of the `OpCharClass` arm:
`for i := 0; i < len(re.Rune); i += 2 [ sum += 1 + int(re.Rune[i+1]-re.Rune[i]) ]`.
An odd-length rune list makes `re.Rune[i+1]` panic with an index out of
range, modelled as `none`. -/
def classSum : List Nat → Option Int
  | [] => some 0
  | lo :: hi :: rest =>
    match classSum rest with
    | some s => some ((1 + ((hi : Int) - (lo : Int))) + s)
    | none => none
  | _ :: [] => none

/-- The selection loop of the `OpCharClass` arm: walk the range pairs,
return `low + index` once the remaining index falls inside the current
range, otherwise subtract the range size and continue.  The fallthrough
(returning the empty string after the loop) is modelled as `none` here;
the caller turns it into the empty string.  This loop is only reached
after `classSum` succeeded, so the rune list is even and the odd-tail
panic of the Go loop cannot occur. -/
def charClassPick : List Nat → Int → Option Nat
  | lo :: hi :: rest, index =>
    let delta : Int := (hi : Int) - (lo : Int)
    if index ≤ delta then some ((lo : Int) + index).toNat
    else charClassPick rest (index - (delta + 1))
  | _, _ => none

/-- Indexing a byte string, `s[i]` in Go: panics (`none`) unless
`0 ≤ i < len s`. -/
def byteAt (s : List Nat) (i : Int) : Option Nat :=
  if 0 ≤ i then s[i.toNat]? else none

mutual

/-- The method `generateFromRegexp` of src/xeger.go: one arm per node kind.
Returns the generated code points together with the next unconsumed source
index; `none` models a runtime panic. -/
def generateFromRegexp (limit : Int) (src : Nat → Int) (re : Regexp) (k : Nat) :
    Option (List Nat × Nat) :=
  match re with
  | .opLiteral rs => some (rs, k)
  | .opCharClass rs =>
    match classSum rs with
    | none => none
    | some sum =>
      match randInt (src k) sum with
      | none => none
      | some index =>
        match charClassPick rs index with
        | some c => some ([c], k + 1)
        | none => some ([], k + 1)
  | .opAnyCharNotNL =>
    match randInt (src k) (printableNotNL.length : Int) with
    | none => none
    | some i =>
      match byteAt printableNotNL i with
      | none => none
      | some c => some ([c], k + 1)
  | .opAnyChar =>
    match randInt (src k) (printable.length : Int) with
    | none => none
    | some i =>
      match byteAt printable i with
      | none => none
      | some c => some ([c], k + 1)
  | .opCapture subs => generateFromSubexpression limit src subs 1 k
  | .opStar subs =>
    match randInt (src k) (limit + 1) with
    | none => none
    | some c => generateFromSubexpression limit src subs c (k + 1)
  | .opPlus subs =>
    match randInt (src k) limit with
    | none => none
    | some c => generateFromSubexpression limit src subs (c + 1) (k + 1)
  | .opQuest subs =>
    match randInt (src k) 2 with
    | none => none
    | some c => generateFromSubexpression limit src subs c (k + 1)
  | .opRepeat mi ma subs =>
    let mx := if ma = -1 then limit else ma
    match randInt (src k) (mx - mi + 1) with
    | none => none
    | some r => generateFromSubexpression limit src subs (r + mi) (k + 1)
  | .opConcat subs => generateFromSubexpression limit src subs 1 k
  | .opAlternate subs =>
    match randInt (src k) (subs.length : Int) with
    | none => none
    | some i =>
      match h : subs[i.toNat]? with
      | none => none
      | some sub => generateFromRegexp limit src sub (k + 1)
  | .opEmptyMatch => some ([], k)
  | .opNoMatch => some ([], k)
  | .opBeginLine => some ([], k)
  | .opEndLine => some ([], k)
  | .opBeginText => some ([], k)
  | .opEndText => some ([], k)
  | .opWordBoundary => some ([], k)
  | .opNoWordBoundary => some ([], k)
termination_by (sizeOf re, 2, 0)
decreasing_by
  all_goals simp_wf
  all_goals apply Prod.Lex.left
  all_goals first
  | (have hlt := List.sizeOf_lt_of_mem (List.getElem?_mem h)
     omega)
  | simp_arith

/-- The method `generateFromSubexpression` of src/xeger.go with an `int`
count.  `make([]byte, 0, len(re.Sub)*count)` panics on a negative
capacity, i.e. when `count < 0` and the child list is non-empty; otherwise
the double loop runs `count.toNat` passes over the children. -/
def generateFromSubexpression (limit : Int) (src : Nat → Int) (subs : List Regexp)
    (count : Int) (k : Nat) : Option (List Nat × Nat) :=
  if count < 0 ∧ ¬ subs.isEmpty then none
  else genPasses limit src subs count.toNat k
termination_by (sizeOf subs, 1, count.toNat + 1)
decreasing_by
  apply Prod.Lex.right
  apply Prod.Lex.right
  omega

/-- The outer loop of `generateFromSubexpression`: run `count` passes over
the child list, concatenating the outputs. -/
def genPasses (limit : Int) (src : Nat → Int) (subs : List Regexp) (count : Nat)
    (k : Nat) : Option (List Nat × Nat) :=
  match count with
  | 0 => some ([], k)
  | c + 1 =>
    match genOnePass limit src subs k with
    | none => none
    | some (o1, k1) =>
      match genPasses limit src subs c k1 with
      | none => none
      | some (o2, k2) => some (o1 ++ o2, k2)
termination_by (sizeOf subs, 1, count)
decreasing_by
  all_goals simp_wf
  all_goals (apply Prod.Lex.right; first
    | (apply Prod.Lex.left; omega)
    | (apply Prod.Lex.right; omega))

/-- The inner loop of `generateFromSubexpression`: generate every child
once, in order, concatenating the outputs. -/
def genOnePass (limit : Int) (src : Nat → Int) (subs : List Regexp) (k : Nat) :
    Option (List Nat × Nat) :=
  match subs with
  | [] => some ([], k)
  | sub :: rest =>
    match generateFromRegexp limit src sub k with
    | none => none
    | some (o1, k1) =>
      match genOnePass limit src rest k1 with
      | none => none
      | some (o2, k2) => some (o1 ++ o2, k2)
termination_by (sizeOf subs, 0, 0)
decreasing_by
  all_goals simp_wf
  all_goals apply Prod.Lex.left
  all_goals simp_arith

end

/-- A configuration option, Go's `Option` interface (functional options).
`withSource` is `WithSource`, `withLimit` is `WithLimit`. -/
inductive XegerOption where
  | withSource (s : Nat → Int)
  | withLimit (n : Int)

/-- The `Xeger` struct.  Before defaulting, the Go `source` field is a nil
interface, modelled with `Option`; `NewXeger` always fills it. -/
structure XegerGen where
  re : Regexp
  source : Option (Nat → Int)
  limit : Int

/-- The `apply` dispatch of the functional options. -/
def applyOption (x : XegerGen) (o : XegerOption) : XegerGen :=
  match o with
  | .withSource s => ⟨x.re, some s, x.limit⟩
  | .withLimit n => ⟨x.re, x.source, n⟩

/-- The constructor `NewXeger`.  Parsing the pattern text is delegated to
the external `regexp/syntax` parser, so its result (`Except` of a
diagnostic or a tree) is an input here; `dsrc` is the time-seeded source
built by `defaultSource()`.  A parse failure is propagated unchanged;
otherwise the options are applied in order over the zero-valued struct and
the defaults fill the source (when still nil) and the limit (when not
positive). -/
def NewXeger (parsed : Except String Regexp) (dsrc : Nat → Int)
    (opts : List XegerOption) : Except String XegerGen :=
  match parsed with
  | .error e => .error e
  | .ok re =>
    let x := opts.foldl applyOption ⟨re, none, 0⟩
    let x := if x.source.isNone then ⟨x.re, some dsrc, x.limit⟩ else x
    let x := if x.limit ≤ 0 then ⟨x.re, x.source, defaultLimit⟩ else x
    .ok x

/-- The method `Generate` of src/xeger.go: walk the stored tree with the
stored source and limit.  Calling through a nil source (impossible after
`NewXeger`) would panic. -/
def Generate (x : XegerGen) (k : Nat) : Option (List Nat × Nat) :=
  match x.source with
  | some s => generateFromRegexp x.limit s x.re k
  | none => none

mutual

/-- The method `generateFromRegexp` of the earlier implementation
(src/unnamed/part_000): identical walk, except that the repetition limit is
the package constant `limit = 10` and the random values come from the
package-global source, modelled as the stream argument `src`. -/
def generateFromRegexpOld (src : Nat → Int) (re : Regexp) (k : Nat) :
    Option (List Nat × Nat) :=
  match re with
  | .opLiteral rs => some (rs, k)
  | .opCharClass rs =>
    match classSum rs with
    | none => none
    | some sum =>
      match randInt (src k) sum with
      | none => none
      | some index =>
        match charClassPick rs index with
        | some c => some ([c], k + 1)
        | none => some ([], k + 1)
  | .opAnyCharNotNL =>
    match randInt (src k) (printableNotNL.length : Int) with
    | none => none
    | some i =>
      match byteAt printableNotNL i with
      | none => none
      | some c => some ([c], k + 1)
  | .opAnyChar =>
    match randInt (src k) (printable.length : Int) with
    | none => none
    | some i =>
      match byteAt printable i with
      | none => none
      | some c => some ([c], k + 1)
  | .opCapture subs => generateFromSubexpressionOld src subs 1 k
  | .opStar subs =>
    match randInt (src k) (10 + 1) with
    | none => none
    | some c => generateFromSubexpressionOld src subs c (k + 1)
  | .opPlus subs =>
    match randInt (src k) 10 with
    | none => none
    | some c => generateFromSubexpressionOld src subs (c + 1) (k + 1)
  | .opQuest subs =>
    match randInt (src k) 2 with
    | none => none
    | some c => generateFromSubexpressionOld src subs c (k + 1)
  | .opRepeat mi ma subs =>
    let mx := if ma = -1 then 10 else ma
    match randInt (src k) (mx - mi + 1) with
    | none => none
    | some r => generateFromSubexpressionOld src subs (r + mi) (k + 1)
  | .opConcat subs => generateFromSubexpressionOld src subs 1 k
  | .opAlternate subs =>
    match randInt (src k) (subs.length : Int) with
    | none => none
    | some i =>
      match h : subs[i.toNat]? with
      | none => none
      | some sub => generateFromRegexpOld src sub (k + 1)
  | .opEmptyMatch => some ([], k)
  | .opNoMatch => some ([], k)
  | .opBeginLine => some ([], k)
  | .opEndLine => some ([], k)
  | .opBeginText => some ([], k)
  | .opEndText => some ([], k)
  | .opWordBoundary => some ([], k)
  | .opNoWordBoundary => some ([], k)
termination_by (sizeOf re, 2, 0)
decreasing_by
  all_goals simp_wf
  all_goals apply Prod.Lex.left
  all_goals first
  | (have hlt := List.sizeOf_lt_of_mem (List.getElem?_mem h)
     omega)
  | simp_arith

/-- The method `generateFromSubexpression` of the earlier implementation. -/
def generateFromSubexpressionOld (src : Nat → Int) (subs : List Regexp)
    (count : Int) (k : Nat) : Option (List Nat × Nat) :=
  if count < 0 ∧ ¬ subs.isEmpty then none
  else genPassesOld src subs count.toNat k
termination_by (sizeOf subs, 1, count.toNat + 1)
decreasing_by
  apply Prod.Lex.right
  apply Prod.Lex.right
  omega

/-- The outer repetition loop of the earlier `generateFromSubexpression`. -/
def genPassesOld (src : Nat → Int) (subs : List Regexp) (count : Nat) (k : Nat) :
    Option (List Nat × Nat) :=
  match count with
  | 0 => some ([], k)
  | c + 1 =>
    match genOnePassOld src subs k with
    | none => none
    | some (o1, k1) =>
      match genPassesOld src subs c k1 with
      | none => none
      | some (o2, k2) => some (o1 ++ o2, k2)
termination_by (sizeOf subs, 1, count)
decreasing_by
  all_goals simp_wf
  all_goals (apply Prod.Lex.right; first
    | (apply Prod.Lex.left; omega)
    | (apply Prod.Lex.right; omega))

/-- The inner child loop of the earlier `generateFromSubexpression`. -/
def genOnePassOld (src : Nat → Int) (subs : List Regexp) (k : Nat) :
    Option (List Nat × Nat) :=
  match subs with
  | [] => some ([], k)
  | sub :: rest =>
    match generateFromRegexpOld src sub k with
    | none => none
    | some (o1, k1) =>
      match genOnePassOld src rest k1 with
      | none => none
      | some (o2, k2) => some (o1 ++ o2, k2)
termination_by (sizeOf subs, 0, 0)
decreasing_by
  all_goals simp_wf
  all_goals apply Prod.Lex.left
  all_goals simp_arith

end

/-- The method `Generate` of the earlier implementation: walk the stored
tree with the package-global source. -/
def GenerateOld (re : Regexp) (src : Nat → Int) (k : Nat) : Option (List Nat × Nat) :=
  generateFromRegexpOld src re k

/-- Membership of a code point in a flat (low, high) range-pair list. -/
def memClass : List Nat → Nat → Bool
  | lo :: hi :: rest, c => (decide (lo ≤ c) && decide (c ≤ hi)) || memClass rest c
  | _, _ => false

/-- The total count of code points covered by a range-pair list, each range
contributing high - low + 1 (the spec's value of `sum`). -/
def sumSpec : List Nat → Int
  | lo :: hi :: rest => ((hi : Int) - (lo : Int) + 1) + sumSpec rest
  | _ => 0

/-- A rune list is a well-shaped class: even length, each pair ordered. -/
def classOk : List Nat → Bool
  | [] => true
  | lo :: hi :: rest => decide (lo ≤ hi) && classOk rest
  | _ => false

/-- A rune list is a normalized class: well-shaped, and consecutive ranges
strictly separated (sorted and disjoint), as the parser guarantees. -/
def classSorted : List Nat → Bool
  | [] => true
  | lo :: hi :: rest =>
    decide (lo ≤ hi) &&
    (match rest with
     | lo2 :: _ => decide (hi < lo2)
     | [] => true) &&
    classSorted rest
  | _ => false

mutual

/-- Modelled from the spec (§3): the invariants of a tree produced by the
external parser, which is not part of this repository's source.  Character
classes are flat lists of ordered (low, high) pairs; capture and the
repetition operators wrap exactly one child; `Repeat` has `0 ≤ Min` and
either `Max = -1` (unbounded) or `Min ≤ Max`. -/
def wfRegexp : Regexp → Bool
  | .opLiteral _ => true
  | .opCharClass rs => classOk rs
  | .opAnyCharNotNL => true
  | .opAnyChar => true
  | .opCapture subs => wfSingle subs
  | .opStar subs => wfSingle subs
  | .opPlus subs => wfSingle subs
  | .opQuest subs => wfSingle subs
  | .opRepeat mi ma subs =>
    decide (0 ≤ mi) && (decide (ma = -1) || decide (mi ≤ ma)) && wfSingle subs
  | .opConcat subs => wfList subs
  | .opAlternate subs => wfList subs
  | _ => true

/-- A child list that is exactly one well-formed node. -/
def wfSingle : List Regexp → Bool
  | [r] => wfRegexp r
  | _ => false

/-- Every node of the list is well-formed. -/
def wfList : List Regexp → Bool
  | [] => true
  | r :: rest => wfRegexp r && wfList rest

end

mutual

/-- No zero-width assertion (anchors, word boundaries) and no no-match node
anywhere in the tree; `EmptyMatch` is allowed. -/
def assertFree : Regexp → Bool
  | .opNoMatch => false
  | .opBeginLine => false
  | .opEndLine => false
  | .opBeginText => false
  | .opEndText => false
  | .opWordBoundary => false
  | .opNoWordBoundary => false
  | .opCapture subs => assertFreeList subs
  | .opStar subs => assertFreeList subs
  | .opPlus subs => assertFreeList subs
  | .opQuest subs => assertFreeList subs
  | .opRepeat _ _ subs => assertFreeList subs
  | .opConcat subs => assertFreeList subs
  | .opAlternate subs => assertFreeList subs
  | _ => true

/-- `assertFree` for every node of a list. -/
def assertFreeList : List Regexp → Bool
  | [] => true
  | r :: rest => assertFree r && assertFreeList rest

end

mutual

/-- A static bound on the length of any string the generator can produce
from a node, given the repetition limit (used to state that generation is
statically bounded). -/
def maxLen (limit : Int) : Regexp → Nat
  | .opLiteral rs => rs.length
  | .opCharClass _ => 1
  | .opAnyCharNotNL => 1
  | .opAnyChar => 1
  | .opCapture subs => maxLenSum limit subs
  | .opStar subs => (limit + 1).natAbs * maxLenSum limit subs
  | .opPlus subs => limit.natAbs * maxLenSum limit subs
  | .opQuest subs => maxLenSum limit subs
  | .opRepeat mi ma subs =>
    (mi.natAbs + ((if ma = -1 then limit else ma) - mi + 1).natAbs) * maxLenSum limit subs
  | .opConcat subs => maxLenSum limit subs
  | .opAlternate subs => maxLenMax limit subs
  | _ => 0

def maxLenSum (limit : Int) : List Regexp → Nat
  | [] => 0
  | r :: rest => maxLen limit r + maxLenSum limit rest

def maxLenMax (limit : Int) : List Regexp → Nat
  | [] => 0
  | r :: rest => Nat.max (maxLen limit r) (maxLenMax limit rest)

end

/-- Word character of the dialect: [0-9A-Za-z_]. -/
def isWordChar (c : Nat) : Bool :=
  (decide (48 ≤ c) && decide (c ≤ 57)) || (decide (65 ≤ c) && decide (c ≤ 90)) ||
  (decide (97 ≤ c) && decide (c ≤ 122)) || decide (c = 95)

/-- Whether the character at position `i` (if any) is a word character. -/
def wordAt (s : List Nat) (i : Nat) : Bool :=
  match s[i]? with
  | some c => isWordChar c
  | none => false

/-- Whether position `i` of `s` is a word boundary: a word character on
exactly one side. -/
def boundaryAt (s : List Nat) (i : Nat) : Bool :=
  (if i = 0 then false else wordAt s (i - 1)) != wordAt s i

/-- The code points `rs` occur in `s` starting at position `i`. -/
def sliceIs (s : List Nat) (i : Nat) (rs : List Nat) : Prop :=
  i + rs.length ≤ s.length ∧ (s.drop i).take rs.length = rs

mutual

/-- Modelled from the spec (§1, §8 match soundness): the matching
semantics of the regex dialect used for parsing — the external matcher is
not part of this repository's source.  `MSpan re s i j` means the node
`re` matches the span [i, j) of the string `s`; positions matter because
anchors and word boundaries constrain the surrounding context.  The
repetition operators repeat their single child per the parser's shape. -/
inductive MSpan : Regexp → List Nat → Nat → Nat → Prop where
  | literal {rs s i} : sliceIs s i rs → MSpan (.opLiteral rs) s i (i + rs.length)
  | charClass {rs s i c} : memClass rs c = true → s[i]? = some c →
      MSpan (.opCharClass rs) s i (i + 1)
  | anyCharNotNL {s i c} : s[i]? = some c → c ≠ 10 → MSpan .opAnyCharNotNL s i (i + 1)
  | anyChar {s i c} : s[i]? = some c → MSpan .opAnyChar s i (i + 1)
  | capture {r s i j} : MSpan r s i j → MSpan (.opCapture [r]) s i j
  | star {r n s i j} : MPow r n s i j → MSpan (.opStar [r]) s i j
  | plus {r n s i j} : MPow r n s i j → 1 ≤ n → MSpan (.opPlus [r]) s i j
  | quest {r n s i j} : MPow r n s i j → n ≤ 1 → MSpan (.opQuest [r]) s i j
  | repC {mi ma r n s i j} : MPow r n s i j → mi ≤ (n : Int) →
      (ma = -1 ∨ (n : Int) ≤ ma) → MSpan (.opRepeat mi ma [r]) s i j
  | concatC {rs s i j} : MSeq rs s i j → MSpan (.opConcat rs) s i j
  | alternate {rs r s i j} : r ∈ rs → MSpan r s i j → MSpan (.opAlternate rs) s i j
  | empty {s i} : i ≤ s.length → MSpan .opEmptyMatch s i i
  | beginText {s} : MSpan .opBeginText s 0 0
  | endText {s} : MSpan .opEndText s s.length s.length
  | beginLine {s i} : i ≤ s.length → (i = 0 ∨ s[i - 1]? = some 10) →
      MSpan .opBeginLine s i i
  | endLine {s i} : i ≤ s.length → (i = s.length ∨ s[i]? = some 10) →
      MSpan .opEndLine s i i
  | wordBoundary {s i} : i ≤ s.length → boundaryAt s i = true →
      MSpan .opWordBoundary s i i
  | noWordBoundary {s i} : i ≤ s.length → boundaryAt s i = false →
      MSpan .opNoWordBoundary s i i

/-- A list of nodes matches consecutive spans. -/
inductive MSeq : List Regexp → List Nat → Nat → Nat → Prop where
  | nil {s i} : i ≤ s.length → MSeq [] s i i
  | cons {r rs s i m j} : MSpan r s i m → MSeq rs s m j → MSeq (r :: rs) s i j

/-- A node matches `n` consecutive spans. -/
inductive MPow : Regexp → Nat → List Nat → Nat → Nat → Prop where
  | zero {r s i} : i ≤ s.length → MPow r 0 s i i
  | succ {r n s i m j} : MSpan r s i m → MPow r n s m j → MPow r (n + 1) s i j

end

/-- A whole string matches a pattern: the root node matches the full span. -/
def Matches (re : Regexp) (s : List Nat) : Prop := MSpan re s 0 s.length

theorem tmod_lt_natAbs (v : Int) {n : Int} (hn : n ≠ 0) :
    Int.tmod v n < (n.natAbs : Int) := by
  rcases lt_or_gt_of_ne hn with h | h
  · have h2 : Int.tmod v n = Int.tmod v (-n) := by
      rw [← Int.tmod_neg v (-n), neg_neg]
    rw [h2]
    have : (0 : Int) < -n := by omega
    have := Int.tmod_lt_of_pos v this
    omega
  · have := Int.tmod_lt_of_pos v h
    omega

theorem randInt_some {v n : Int} (hn : n ≠ 0) :
    randInt v n = some (Int.tmod v n) := by
  simp [randInt, hn]

theorem pairListInduction (motive : List Nat → Prop) (h0 : motive [])
    (h1 : ∀ a, motive [a])
    (h2 : ∀ lo hi rest, motive rest → motive (lo :: hi :: rest)) :
    ∀ rs, motive rs
  | [] => h0
  | [a] => h1 a
  | lo :: hi :: rest => h2 lo hi rest (pairListInduction motive h0 h1 h2 rest)

theorem classOk_of_sorted {rs : List Nat} (h : classSorted rs = true) : classOk rs = true := by
  induction rs using pairListInduction with
  | h0 => rfl
  | h1 a => simp [classSorted] at h
  | h2 lo hi rest ih =>
    simp only [classSorted, Bool.and_eq_true, decide_eq_true_eq] at h
    simp only [classOk, Bool.and_eq_true, decide_eq_true_eq]
    exact ⟨h.1.1, ih h.2⟩

theorem sumSpec_nonneg {rs : List Nat} (h : classOk rs = true) : 0 ≤ sumSpec rs := by
  induction rs using pairListInduction with
  | h0 => simp [sumSpec]
  | h1 a => simp [classOk] at h
  | h2 lo hi rest ih =>
    simp only [classOk, Bool.and_eq_true, decide_eq_true_eq] at h
    have := ih h.2
    simp only [sumSpec]
    omega

theorem classSum_eq_sumSpec {rs : List Nat} (h : classOk rs = true) :
    classSum rs = some (sumSpec rs) := by
  induction rs using pairListInduction with
  | h0 => simp [classSum, sumSpec]
  | h1 a => simp [classOk] at h
  | h2 lo hi rest ih =>
    simp only [classOk, Bool.and_eq_true, decide_eq_true_eq] at h
    simp only [classSum, sumSpec, ih h.2]
    congr 1
    omega

theorem charClassPick_mem {rs : List Nat} (hok : classOk rs = true) :
    ∀ {idx : Int} {c : Nat}, 0 ≤ idx → charClassPick rs idx = some c →
    memClass rs c = true := by
  induction rs using pairListInduction with
  | h0 => intro idx c h0 hp; simp [charClassPick] at hp
  | h1 a => simp [classOk] at hok
  | h2 lo hi rest ih =>
    intro idx c h0 hp
    simp only [classOk, Bool.and_eq_true, decide_eq_true_eq] at hok
    simp only [charClassPick] at hp
    by_cases hle : idx ≤ (hi : Int) - (lo : Int)
    · rw [if_pos hle] at hp
      have hc : ((lo : Int) + idx).toNat = c := Option.some.inj hp
      simp only [memClass, Bool.or_eq_true, Bool.and_eq_true, decide_eq_true_eq]
      left
      constructor <;> omega
    · rw [if_neg hle] at hp
      have := ih hok.2 (by omega) hp
      simp only [memClass, Bool.or_eq_true]
      right
      exact this

theorem charClassPick_some {rs : List Nat} (hok : classOk rs = true) :
    ∀ {idx : Int}, 0 ≤ idx → idx < sumSpec rs →
    ∃ c, charClassPick rs idx = some c ∧ memClass rs c = true := by
  induction rs using pairListInduction with
  | h0 => intro idx h0 hlt; simp [sumSpec] at hlt; omega
  | h1 a => simp [classOk] at hok
  | h2 lo hi rest ih =>
    intro idx h0 hlt
    simp only [classOk, Bool.and_eq_true, decide_eq_true_eq] at hok
    by_cases hle : idx ≤ (hi : Int) - (lo : Int)
    · refine ⟨((lo : Int) + idx).toNat, ?_, ?_⟩
      · simp [charClassPick, hle]
      · simp only [memClass, Bool.or_eq_true, Bool.and_eq_true, decide_eq_true_eq]
        left
        constructor <;> omega
    · simp only [sumSpec] at hlt
      obtain ⟨c, hc1, hc2⟩ :=
        @ih hok.2 (idx - ((hi : Int) - (lo : Int) + 1)) (by omega) (by omega)
      refine ⟨c, ?_, ?_⟩
      · simp only [charClassPick]
        rw [if_neg hle]
        exact hc1
      · simp only [memClass, Bool.or_eq_true]
        right
        exact hc2

/-- The low bound of the first range of a class (0 for an empty class). -/
def headLo : List Nat → Nat
  | lo :: _ => lo
  | [] => 0

theorem classSorted_cons {lo hi : Nat} {rest : List Nat}
    (h : classSorted (lo :: hi :: rest) = true) :
    lo ≤ hi ∧ classSorted rest = true ∧ (rest ≠ [] → hi < headLo rest) := by
  cases rest with
  | nil =>
    refine ⟨?_, rfl, by simp⟩
    simpa [classSorted] using h
  | cons lo2 t =>
    simp only [classSorted, Bool.and_eq_true, decide_eq_true_eq] at h
    exact ⟨h.1.1, h.2, fun _ => by simpa using h.1.2⟩

theorem memClass_lower {rs : List Nat} (hs : classSorted rs = true) {c : Nat}
    (hm : memClass rs c = true) : headLo rs ≤ c := by
  induction rs using pairListInduction with
  | h0 => simp [memClass] at hm
  | h1 a => simp [memClass] at hm
  | h2 lo hi rest ih =>
    obtain ⟨hlh, hsr, hgap⟩ := classSorted_cons hs
    simp only [memClass, Bool.or_eq_true, Bool.and_eq_true, decide_eq_true_eq] at hm
    rcases hm with hm | hm
    · exact hm.1
    · have hne : rest ≠ [] := by
        intro he
        rw [he] at hm
        simp [memClass] at hm
      have h1 := ih hsr hm
      have h2 := hgap hne
      simp only [headLo]
      omega

theorem memClass_tail_gt {lo hi : Nat} {rest : List Nat} {c : Nat}
    (hs : classSorted (lo :: hi :: rest) = true)
    (hm : memClass rest c = true) : hi < c := by
  obtain ⟨hlh, hsr, hgap⟩ := classSorted_cons hs
  have hne : rest ≠ [] := by
    intro he
    rw [he] at hm
    simp [memClass] at hm
  have h1 := memClass_lower hsr hm
  have h2 := hgap hne
  omega

theorem charClassPick_unique {rs : List Nat} (hs : classSorted rs = true) {c : Nat}
    (hm : memClass rs c = true) :
    ∃! idx : Int, 0 ≤ idx ∧ idx < sumSpec rs ∧ charClassPick rs idx = some c := by
  induction rs using pairListInduction with
  | h0 => simp [memClass] at hm
  | h1 a => simp [memClass] at hm
  | h2 lo hi rest ih =>
    have hok : classOk (lo :: hi :: rest) = true := classOk_of_sorted hs
    have hokr : classOk rest = true := by
      simp only [classOk, Bool.and_eq_true] at hok
      exact hok.2
    have hsum0 : 0 ≤ sumSpec rest := sumSpec_nonneg hokr
    have hlohi : lo ≤ hi := by
      simp only [classOk, Bool.and_eq_true, decide_eq_true_eq] at hok
      exact hok.1
    have hsr : classSorted rest = true := by
      simp only [classSorted, Bool.and_eq_true] at hs
      exact hs.2
    simp only [memClass, Bool.or_eq_true, Bool.and_eq_true, decide_eq_true_eq] at hm
    by_cases hc : lo ≤ c ∧ c ≤ hi
    · refine ⟨(c : Int) - (lo : Int), ⟨by omega, ?_, ?_⟩, ?_⟩
      · simp only [sumSpec]
        omega
      · simp only [charClassPick]
        rw [if_pos (by omega)]
        congr 1
        omega
      · intro y ⟨hy0, _, hyp⟩
        simp only [charClassPick] at hyp
        by_cases hyle : y ≤ (hi : Int) - (lo : Int)
        · rw [if_pos hyle] at hyp
          have := Option.some.inj hyp
          omega
        · rw [if_neg hyle] at hyp
          have hmem := charClassPick_mem hokr (by omega) hyp
          have := memClass_tail_gt hs hmem
          omega
    · have hmr : memClass rest c = true := by
        rcases hm with hm | hm
        · exact absurd hm hc
        · exact hm
      have hgt : hi < c := memClass_tail_gt hs hmr
      obtain ⟨j, ⟨hj0, hjlt, hjp⟩, hjs⟩ := ih hsr hmr
      refine ⟨((hi : Int) - (lo : Int) + 1) + j, ⟨by omega, ?_, ?_⟩, ?_⟩
      · simp only [sumSpec]
        omega
      · simp only [charClassPick]
        rw [if_neg (by omega)]
        have : (hi : Int) - (lo : Int) + 1 + j - ((hi : Int) - (lo : Int) + 1) = j := by omega
        rw [this]
        exact hjp
      · intro y ⟨hy0, hylt, hyp⟩
        simp only [charClassPick] at hyp
        by_cases hyle : y ≤ (hi : Int) - (lo : Int)
        · rw [if_pos hyle] at hyp
          have := Option.some.inj hyp
          omega
        · rw [if_neg hyle] at hyp
          have hbound : y - ((hi : Int) - (lo : Int) + 1) < sumSpec rest := by
            simp only [sumSpec] at hylt
            omega
          have := hjs (y - ((hi : Int) - (lo : Int) + 1)) ⟨by omega, hbound, hyp⟩
          omega

/-- The child list repeated `n` times, flattened: the sequence of nodes
generated by `n` passes of `generateFromSubexpression`. -/
def repList (n : Nat) (subs : List Regexp) : List Regexp :=
  (List.replicate n subs).flatten

theorem repList_zero (subs : List Regexp) : repList 0 subs = [] := rfl

theorem repList_succ (n : Nat) (subs : List Regexp) :
    repList (n + 1) subs = subs ++ repList n subs := by
  simp [repList, List.replicate_succ]

theorem repList_one (subs : List Regexp) : repList 1 subs = subs := by
  simp [repList]

theorem mseq_append : ∀ {l1 l2 : List Regexp} {s : List Nat} {i m j : Nat},
    MSeq l1 s i m → MSeq l2 s m j → MSeq (l1 ++ l2) s i j := by
  intro l1
  induction l1 with
  | nil =>
    intro l2 s i m j h1 h2
    cases h1
    simpa using h2
  | cons r rest ih =>
    intro l2 s i m j h1 h2
    cases h1 with
    | cons hsp hseq => exact MSeq.cons hsp (ih hseq h2)

theorem mseq_single : ∀ {r : Regexp} {s : List Nat} {i j : Nat},
    MSeq [r] s i j → MSpan r s i j := by
  intro r s i j h
  cases h with
  | cons hsp hseq =>
    cases hseq
    exact hsp

theorem mseq_replicate_pow : ∀ (n : Nat) {r : Regexp} {s : List Nat} {i j : Nat},
    MSeq (List.replicate n r) s i j → MPow r n s i j := by
  intro n
  induction n with
  | zero =>
    intro r s i j h
    rw [List.replicate_zero] at h
    cases h with
    | nil hle => exact MPow.zero hle
  | succ m ih =>
    intro r s i j h
    rw [List.replicate_succ] at h
    cases h with
    | cons hsp hseq => exact MPow.succ hsp (ih hseq)

theorem repList_single (n : Nat) (r : Regexp) : repList n [r] = List.replicate n r := by
  induction n with
  | zero => rfl
  | succ m ih =>
    rw [repList_succ, ih, List.replicate_succ]
    rfl

theorem mseq_flatten_replicate_pow {n : Nat} {r : Regexp} {s : List Nat} {i j : Nat}
    (h : MSeq (repList n [r]) s i j) : MPow r n s i j := by
  apply mseq_replicate_pow n
  rwa [repList_single] at h

theorem getElem?_append_middle (pre : List Nat) (c : Nat) (post : List Nat) :
    (pre ++ c :: post)[pre.length]? = some c := by
  induction pre with
  | nil => simp
  | cons a t ih => simpa using ih

theorem sliceIs_middle (pre rs post : List Nat) :
    sliceIs (pre ++ rs ++ post) pre.length rs := by
  constructor
  · simp [List.length_append]
  · rw [List.append_assoc, List.drop_left, List.take_left]

theorem wfList_mem : ∀ {subs : List Regexp} {r : Regexp},
    wfList subs = true → r ∈ subs → wfRegexp r = true := by
  intro subs
  induction subs with
  | nil => intro r _ hm; cases hm
  | cons a t ih =>
    intro r hw hm
    simp only [wfList, Bool.and_eq_true] at hw
    cases hm with
    | head => exact hw.1
    | tail _ hm2 => exact ih hw.2 hm2

theorem assertFreeList_mem : ∀ {subs : List Regexp} {r : Regexp},
    assertFreeList subs = true → r ∈ subs → assertFree r = true := by
  intro subs
  induction subs with
  | nil => intro r _ hm; cases hm
  | cons a t ih =>
    intro r hw hm
    simp only [assertFreeList, Bool.and_eq_true] at hw
    cases hm with
    | head => exact hw.1
    | tail _ hm2 => exact ih hw.2 hm2

theorem wfSingle_eq {subs : List Regexp} (h : wfSingle subs = true) :
    ∃ r, subs = [r] ∧ wfRegexp r = true := by
  match subs with
  | [r] => exact ⟨r, rfl, h⟩
  | [] => simp [wfSingle] at h
  | a :: b :: t => simp [wfSingle] at h

theorem wfList_of_single {subs : List Regexp} (h : wfSingle subs = true) :
    wfList subs = true := by
  obtain ⟨r, rfl, hr⟩ := wfSingle_eq h
  simp [wfList, hr]

theorem byteAt_mem {s : List Nat} {i : Int} (h0 : 0 ≤ i) (hlt : i.toNat < s.length) :
    ∃ c, byteAt s i = some c ∧ c ∈ s := by
  refine ⟨s[i.toNat], ?_, List.getElem_mem hlt⟩
  simp [byteAt, h0, List.getElem?_eq_getElem hlt]

/-- Soundness statement for one node: whatever `generateFromRegexp` emits
matches the node as a span, in any surrounding context. -/
def SoundRe (re : Regexp) : Prop :=
  ∀ (limit : Int) (src : Nat → Int) (k : Nat) (out : List Nat) (k1 : Nat),
    (∀ i, 0 ≤ src i) → wfRegexp re = true → assertFree re = true →
    generateFromRegexp limit src re k = some (out, k1) →
    ∀ pre post, MSpan re (pre ++ out ++ post) pre.length (pre.length + out.length)

/-- Soundness statement for one pass over a child list. -/
def SoundList (subs : List Regexp) : Prop :=
  ∀ (limit : Int) (src : Nat → Int) (k : Nat) (out : List Nat) (k1 : Nat),
    (∀ i, 0 ≤ src i) → wfList subs = true → assertFreeList subs = true →
    genOnePass limit src subs k = some (out, k1) →
    ∀ pre post, MSeq subs (pre ++ out ++ post) pre.length (pre.length + out.length)

/-- Soundness statement for `count` passes over a child list. -/
def SoundPasses (subs : List Regexp) : Prop :=
  ∀ (count : Nat) (limit : Int) (src : Nat → Int) (k : Nat) (out : List Nat) (k1 : Nat),
    (∀ i, 0 ≤ src i) → wfList subs = true → assertFreeList subs = true →
    genPasses limit src subs count k = some (out, k1) →
    ∀ pre post,
    MSeq (repList count subs) (pre ++ out ++ post) pre.length (pre.length + out.length)

/-- Soundness statement for `generateFromSubexpression` with an int count. -/
def SoundSub (subs : List Regexp) : Prop :=
  ∀ (count : Int) (limit : Int) (src : Nat → Int) (k : Nat) (out : List Nat) (k1 : Nat),
    (∀ i, 0 ≤ src i) → wfList subs = true → assertFreeList subs = true →
    generateFromSubexpression limit src subs count k = some (out, k1) →
    ∀ pre post,
    MSeq (repList count.toNat subs) (pre ++ out ++ post) pre.length
      (pre.length + out.length)

theorem onePass_sound (n : Nat) (ih : ∀ re, sizeOf re < n → SoundRe re) :
    ∀ subs, sizeOf subs ≤ n → SoundList subs := by
  intro subs
  induction subs with
  | nil =>
    intro _ limit src k out k1 _ _ _ hgen pre post
    simp only [genOnePass] at hgen
    simp only [Option.some.injEq, Prod.mk.injEq] at hgen
    obtain ⟨h1, _⟩ := hgen
    subst h1
    exact MSeq.nil (by simp)
  | cons sub rest ihr =>
    intro hsz limit src k out k1 hsrc hwf haf hgen pre post
    have hsub : sizeOf sub < n := by
      have : sizeOf (sub :: rest) = 1 + sizeOf sub + sizeOf rest := by simp
      omega
    have hrest : sizeOf rest ≤ n := by
      have : sizeOf (sub :: rest) = 1 + sizeOf sub + sizeOf rest := by simp
      omega
    simp only [wfList, Bool.and_eq_true] at hwf
    simp only [assertFreeList, Bool.and_eq_true] at haf
    simp only [genOnePass] at hgen
    split at hgen
    · exact absurd hgen (by simp)
    next o1 k2 hg1 =>
      split at hgen
      · exact absurd hgen (by simp)
      next o2 k3 hg2 =>
        simp only [Option.some.injEq, Prod.mk.injEq] at hgen
        obtain ⟨h1, h2⟩ := hgen
        subst h1
        subst h2
        have m1 : MSpan sub (pre ++ o1 ++ (o2 ++ post)) pre.length
            (pre.length + o1.length) :=
          ih sub hsub limit src k o1 k2 hsrc hwf.1 haf.1 hg1 pre (o2 ++ post)
        have m2 : MSeq rest ((pre ++ o1) ++ o2 ++ post) (pre ++ o1).length
            ((pre ++ o1).length + o2.length) :=
          ihr hrest limit src k2 o2 k3 hsrc hwf.2 haf.2 hg2 (pre ++ o1) post
        have e1 : (pre ++ o1) ++ o2 ++ post = pre ++ (o1 ++ o2) ++ post := by
          simp [List.append_assoc]
        have e2 : pre ++ o1 ++ (o2 ++ post) = pre ++ (o1 ++ o2) ++ post := by
          simp [List.append_assoc]
        rw [e1, List.length_append] at m2
        rw [e2] at m1
        have e3 : pre.length + o1.length + o2.length =
            pre.length + (o1 ++ o2).length := by
          simp [List.length_append]
          omega
        rw [e3] at m2
        exact MSeq.cons m1 m2

theorem passes_sound (n : Nat) (ih : ∀ re, sizeOf re < n → SoundRe re) :
    ∀ subs, sizeOf subs ≤ n → SoundPasses subs := by
  intro subs hsz count
  induction count with
  | zero =>
    intro limit src k out k1 _ _ _ hgen pre post
    simp only [genPasses] at hgen
    simp only [Option.some.injEq, Prod.mk.injEq] at hgen
    obtain ⟨h1, _⟩ := hgen
    subst h1
    rw [repList_zero]
    exact MSeq.nil (by simp)
  | succ c ihc =>
    intro limit src k out k1 hsrc hwf haf hgen pre post
    simp only [genPasses] at hgen
    split at hgen
    · exact absurd hgen (by simp)
    next o1 k2 hg1 =>
      split at hgen
      · exact absurd hgen (by simp)
      next o2 k3 hg2 =>
        simp only [Option.some.injEq, Prod.mk.injEq] at hgen
        obtain ⟨h1, h2⟩ := hgen
        subst h1
        subst h2
        have m1 : MSeq subs (pre ++ o1 ++ (o2 ++ post)) pre.length
            (pre.length + o1.length) :=
          onePass_sound n ih subs hsz limit src k o1 k2 hsrc hwf haf hg1 pre (o2 ++ post)
        have m2 : MSeq (repList c subs) ((pre ++ o1) ++ o2 ++ post) (pre ++ o1).length
            ((pre ++ o1).length + o2.length) :=
          ihc limit src k2 o2 k3 hsrc hwf haf hg2 (pre ++ o1) post
        have e1 : (pre ++ o1) ++ o2 ++ post = pre ++ (o1 ++ o2) ++ post := by
          simp [List.append_assoc]
        have e2 : pre ++ o1 ++ (o2 ++ post) = pre ++ (o1 ++ o2) ++ post := by
          simp [List.append_assoc]
        rw [e1, List.length_append] at m2
        rw [e2] at m1
        have e3 : pre.length + o1.length + o2.length =
            pre.length + (o1 ++ o2).length := by
          simp [List.length_append]
          omega
        rw [e3] at m2
        rw [repList_succ]
        exact mseq_append m1 m2

theorem subexpr_sound (n : Nat) (ih : ∀ re, sizeOf re < n → SoundRe re) :
    ∀ subs, sizeOf subs ≤ n → SoundSub subs := by
  intro subs hsz count limit src k out k1 hsrc hwf haf hgen pre post
  simp only [generateFromSubexpression] at hgen
  split at hgen
  · exact absurd hgen (by simp)
  · exact passes_sound n ih subs hsz count.toNat limit src k out k1 hsrc hwf haf hgen
      pre post

theorem randInt_eq_some {v n c : Int} (h : randInt v n = some c) :
    n ≠ 0 ∧ c = Int.tmod v n := by
  by_cases hz : n = 0
  · simp [randInt, hz] at h
  · rw [randInt_some hz] at h
    exact ⟨hz, (Option.some.inj h).symm⟩

theorem randInt_bounds {v n c : Int} (hv : 0 ≤ v) (h : randInt v n = some c) :
    0 ≤ c ∧ c < (n.natAbs : Int) := by
  obtain ⟨hz, rfl⟩ := randInt_eq_some h
  exact ⟨Int.tmod_nonneg n hv, tmod_lt_natAbs v hz⟩

theorem re_sound_aux : ∀ (n : Nat) (re : Regexp), sizeOf re < n → SoundRe re := by
  intro n
  induction n with
  | zero => intro re h; omega
  | succ n ih =>
    intro re hsz limit src k out k1 hsrc hwf haf hgen pre post
    cases re with
    | opLiteral rs =>
      simp only [generateFromRegexp, Option.some.injEq, Prod.mk.injEq] at hgen
      obtain ⟨h1, _⟩ := hgen
      subst h1
      exact MSpan.literal (sliceIs_middle pre rs post)
    | opCharClass rs =>
      simp only [wfRegexp] at hwf
      simp only [generateFromRegexp, classSum_eq_sumSpec hwf] at hgen
      split at hgen
      · exact absurd hgen (by simp)
      next idx hridx =>
        obtain ⟨h0, hlt'⟩ := randInt_bounds (hsrc k) hridx
        have hlt : idx < sumSpec rs := by
          rw [Int.natAbs_of_nonneg (sumSpec_nonneg hwf)] at hlt'
          exact hlt'
        obtain ⟨c, hp, hmem⟩ := charClassPick_some hwf h0 hlt
        simp only [hp, Option.some.injEq, Prod.mk.injEq] at hgen
        obtain ⟨h1, _⟩ := hgen
        subst h1
        have e : pre ++ [c] ++ post = pre ++ c :: post := by simp
        rw [e]
        exact MSpan.charClass hmem (getElem?_append_middle pre c post)
    | opAnyCharNotNL =>
      simp only [generateFromRegexp] at hgen
      split at hgen
      · exact absurd hgen (by simp)
      next idx hridx =>
        obtain ⟨h0, hlt'⟩ := randInt_bounds (hsrc k) hridx
        have hlt : idx.toNat < printableNotNL.length := by
          simp only [Int.natAbs_ofNat] at hlt'
          omega
        obtain ⟨c, hb, hcm⟩ := byteAt_mem h0 hlt
        simp only [hb, Option.some.injEq, Prod.mk.injEq] at hgen
        obtain ⟨h1, _⟩ := hgen
        subst h1
        have hc10 : c ≠ 10 := by
          intro he
          subst he
          revert hcm
          decide
        have e : pre ++ [c] ++ post = pre ++ c :: post := by simp
        rw [e]
        exact MSpan.anyCharNotNL (getElem?_append_middle pre c post) hc10
    | opAnyChar =>
      simp only [generateFromRegexp] at hgen
      split at hgen
      · exact absurd hgen (by simp)
      next idx hridx =>
        obtain ⟨h0, hlt'⟩ := randInt_bounds (hsrc k) hridx
        have hlt : idx.toNat < printable.length := by
          simp only [Int.natAbs_ofNat] at hlt'
          omega
        obtain ⟨c, hb, _⟩ := byteAt_mem h0 hlt
        simp only [hb, Option.some.injEq, Prod.mk.injEq] at hgen
        obtain ⟨h1, _⟩ := hgen
        subst h1
        have e : pre ++ [c] ++ post = pre ++ c :: post := by simp
        rw [e]
        exact MSpan.anyChar (getElem?_append_middle pre c post)
    | opCapture subs =>
      simp only [wfRegexp] at hwf
      simp only [assertFree] at haf
      simp only [generateFromRegexp] at hgen
      have hsub : sizeOf subs ≤ n := by
        simp only [Regexp.opCapture.sizeOf_spec] at hsz
        omega
      obtain ⟨r, rfl, _⟩ := wfSingle_eq hwf
      have hseq := subexpr_sound n ih [r] hsub 1 limit src k out k1 hsrc
        (wfList_of_single hwf) haf hgen pre post
      rw [show (1 : Int).toNat = 1 from rfl, repList_one] at hseq
      exact MSpan.capture (mseq_single hseq)
    | opStar subs =>
      simp only [wfRegexp] at hwf
      simp only [assertFree] at haf
      have hsub : sizeOf subs ≤ n := by
        simp only [Regexp.opStar.sizeOf_spec] at hsz
        omega
      obtain ⟨r, rfl, _⟩ := wfSingle_eq hwf
      simp only [generateFromRegexp] at hgen
      split at hgen
      · exact absurd hgen (by simp)
      next c hrc =>
        have hseq := subexpr_sound n ih [r] hsub c limit src (k + 1) out k1 hsrc
          (wfList_of_single hwf) haf hgen pre post
        exact MSpan.star (mseq_flatten_replicate_pow hseq)
    | opPlus subs =>
      simp only [wfRegexp] at hwf
      simp only [assertFree] at haf
      have hsub : sizeOf subs ≤ n := by
        simp only [Regexp.opPlus.sizeOf_spec] at hsz
        omega
      obtain ⟨r, rfl, _⟩ := wfSingle_eq hwf
      simp only [generateFromRegexp] at hgen
      split at hgen
      · exact absurd hgen (by simp)
      next c hrc =>
        obtain ⟨h0, _⟩ := randInt_bounds (hsrc k) hrc
        have hseq := subexpr_sound n ih [r] hsub (c + 1) limit src (k + 1) out k1 hsrc
          (wfList_of_single hwf) haf hgen pre post
        refine MSpan.plus (mseq_flatten_replicate_pow hseq) ?_
        omega
    | opQuest subs =>
      simp only [wfRegexp] at hwf
      simp only [assertFree] at haf
      have hsub : sizeOf subs ≤ n := by
        simp only [Regexp.opQuest.sizeOf_spec] at hsz
        omega
      obtain ⟨r, rfl, _⟩ := wfSingle_eq hwf
      simp only [generateFromRegexp] at hgen
      split at hgen
      · exact absurd hgen (by simp)
      next c hrc =>
        obtain ⟨h0, hlt'⟩ := randInt_bounds (hsrc k) hrc
        have hseq := subexpr_sound n ih [r] hsub c limit src (k + 1) out k1 hsrc
          (wfList_of_single hwf) haf hgen pre post
        refine MSpan.quest (mseq_flatten_replicate_pow hseq) ?_
        have h2 : (((2 : Int).natAbs : Int)) = 2 := by decide
        rw [h2] at hlt'
        omega
    | opRepeat mi ma subs =>
      simp only [wfRegexp, Bool.and_eq_true, Bool.or_eq_true, decide_eq_true_eq] at hwf
      obtain ⟨⟨hmi, hma⟩, hws⟩ := hwf
      have hsub : sizeOf subs ≤ n := by
        simp only [Regexp.opRepeat.sizeOf_spec] at hsz
        omega
      obtain ⟨r, rfl, _⟩ := wfSingle_eq hws
      simp only [assertFree] at haf
      simp only [generateFromRegexp] at hgen
      split at hgen
      · exact absurd hgen (by simp)
      next idx hridx =>
        obtain ⟨hz, hidx⟩ := randInt_eq_some hridx
        have h0 : 0 ≤ idx := by
          rw [hidx]
          exact Int.tmod_nonneg _ (hsrc k)
        have hseq := subexpr_sound n ih [r] hsub (idx + mi) limit src (k + 1) out k1
          hsrc (wfList_of_single hws) haf hgen pre post
        refine MSpan.repC (mseq_flatten_replicate_pow hseq) (by omega) ?_
        by_cases hcase : ma = -1
        · exact Or.inl hcase
        · right
          rcases hma with h | h
          · exact absurd h hcase
          · have hlt' := tmod_lt_natAbs (src k) hz
            rw [if_neg hcase] at hlt' hidx
            rw [Int.natAbs_of_nonneg (by omega)] at hlt'
            omega
    | opConcat subs =>
      simp only [wfRegexp] at hwf
      simp only [assertFree] at haf
      simp only [generateFromRegexp] at hgen
      have hsub : sizeOf subs ≤ n := by
        simp only [Regexp.opConcat.sizeOf_spec] at hsz
        omega
      have hseq := subexpr_sound n ih subs hsub 1 limit src k out k1 hsrc hwf haf
        hgen pre post
      rw [show (1 : Int).toNat = 1 from rfl, repList_one] at hseq
      exact MSpan.concatC hseq
    | opAlternate subs =>
      simp only [wfRegexp] at hwf
      simp only [assertFree] at haf
      simp only [generateFromRegexp] at hgen
      split at hgen
      · exact absurd hgen (by simp)
      next idx hridx =>
        obtain ⟨h0, hlt'⟩ := randInt_bounds (hsrc k) hridx
        have hlt : idx.toNat < subs.length := by
          simp only [Int.natAbs_ofNat] at hlt'
          omega
        split at hgen
        next hnone =>
          rw [List.getElem?_eq_none_iff] at hnone
          omega
        next sub hsome =>
          have hmem := List.getElem?_mem hsome
          have hszsub : sizeOf sub < n := by
            have h1 := List.sizeOf_lt_of_mem hmem
            simp only [Regexp.opAlternate.sizeOf_spec] at hsz
            omega
          exact MSpan.alternate hmem
            (ih sub hszsub limit src (k + 1) out k1 hsrc (wfList_mem hwf hmem)
              (assertFreeList_mem haf hmem) hgen pre post)
    | opEmptyMatch =>
      simp only [generateFromRegexp, Option.some.injEq, Prod.mk.injEq] at hgen
      obtain ⟨h1, _⟩ := hgen
      subst h1
      exact MSpan.empty (by simp)
    | opNoMatch => simp [assertFree] at haf
    | opBeginLine => simp [assertFree] at haf
    | opEndLine => simp [assertFree] at haf
    | opBeginText => simp [assertFree] at haf
    | opEndText => simp [assertFree] at haf
    | opWordBoundary => simp [assertFree] at haf
    | opNoWordBoundary => simp [assertFree] at haf

theorem genRe_sound (re : Regexp) : SoundRe re :=
  re_sound_aux (sizeOf re + 1) re (by omega)

/-- C1 (counterexample): the pattern "a$c" is accepted by the parser and
parses to Concat [Literal "a", EndText, Literal "c"]; `Generate` on it
returns "ac" (for every source — no draw is consumed), but "ac" does not
match the pattern under the dialect, because `$` requires the match
position to be the end of the text.  So match soundness fails for
patterns with zero-width assertions. -/
theorem c1_match_soundness_counterexample :
    Generate ⟨.opConcat [.opLiteral [97], .opEndText, .opLiteral [99]],
      some (fun _ => 0), 10⟩ 0 = some ([97, 99], 0) ∧
    ¬ Matches (.opConcat [.opLiteral [97], .opEndText, .opLiteral [99]]) [97, 99] := by
  constructor
  · norm_num [Generate, generateFromRegexp, generateFromSubexpression, genPasses,
      genOnePass, Int.toNat_one]
  · intro h
    cases h with
    | concatC hseq =>
      cases hseq with
      | cons hsp1 hseq2 =>
        cases hsp1 with
        | literal hsl =>
          cases hseq2 with
          | cons hsp2 hseq3 =>
            cases hsp2

/-- C1 (amended): for every parser-shaped tree (`wfRegexp`) that contains
no zero-width assertion and no no-match node (`assertFree`), every source
respecting the `Int63` contract, every repetition cap and every starting
position, any string `Generate` returns matches the pattern under the
dialect semantics. -/
theorem c1_match_soundness {re : Regexp} {s : Nat → Int} {limit : Int} {k : Nat}
    {out : List Nat} {k1 : Nat}
    (hsrc : ∀ i, 0 ≤ s i) (hwf : wfRegexp re = true) (haf : assertFree re = true)
    (hgen : Generate ⟨re, some s, limit⟩ k = some (out, k1)) :
    Matches re out := by
  have h := genRe_sound re limit s k out k1 hsrc hwf haf hgen [] []
  simp only [List.nil_append, List.append_nil, List.length_nil, Nat.zero_add] at h
  exact h

/-- Witness for the amended C1 at the concrete pattern "a": the literal
tree generates "a" and "a" matches. -/
theorem c1_match_soundness_witness :
    (∀ i : Nat, 0 ≤ (fun _ : Nat => (0 : Int)) i) ∧
    wfRegexp (.opLiteral [97]) = true ∧
    assertFree (.opLiteral [97]) = true ∧
    Generate ⟨.opLiteral [97], some (fun _ => 0), 10⟩ 0 = some ([97], 0) ∧
    Matches (.opLiteral [97]) [97] := by
  have hg : Generate ⟨.opLiteral [97], some (fun _ => 0), 10⟩ 0 = some ([97], 0) := by
    norm_num [Generate, generateFromRegexp]
  exact ⟨fun _ => le_refl 0, rfl, rfl, hg, c1_match_soundness (fun _ => le_refl 0) rfl rfl hg⟩

/-- C2 (counterexample): for the tree of "a{2,4}" (Repeat Min 2 Max 4 of
Literal "a"), a source that draws the value 2 yields count
randInt(4-2+1) + 2 = (2 mod 3) + 2 = 4, so `Generate` returns "aaaa",
not "aaa" as the claim states. -/
theorem c2_repeat_draw_counterexample :
    Generate ⟨.opRepeat 2 4 [.opLiteral [97]], some (fun _ => 2), 10⟩ 0 =
      some ([97, 97, 97, 97], 1) ∧
    [97, 97, 97, 97] ≠ [97, 97, 97] := by
  constructor
  · have h1 : Int.tmod 2 3 = 2 := by decide
    have h2 : Int.toNat 4 = 4 := by decide
    norm_num [Generate, generateFromRegexp, generateFromSubexpression, genPasses,
      genOnePass, randInt, h1, h2]
  · decide

/-- C2 (amended): for the tree of "a{2,4}", any repetition cap and any
starting position, a source that draws the value 2 makes `Generate`
return "aaaa": the drawn value is the offset from the minimum, so the
count is min 2 + offset 2 = 4. -/
theorem c2_repeat_draw (limit : Int) (k : Nat) :
    generateFromRegexp limit (fun _ => 2) (.opRepeat 2 4 [.opLiteral [97]]) k =
      some ([97, 97, 97, 97], k + 1) := by
  have h1 : Int.tmod 2 3 = 2 := by decide
  have h2 : Int.toNat 4 = 4 := by decide
  norm_num [generateFromRegexp, generateFromSubexpression, genPasses, genOnePass,
    randInt, h1, h2]

/-- C4 (counterexample): for the tree of "a{15,}" with the default cap 10,
a source drawing 3 gives count randInt(10-15+1) + 15 = (3 mod -4) + 15 =
18 repetitions of the child, and 18 is not within the claimed bounds
[min, cap] = [15, 10] (18 exceeds the cap 10). -/
theorem c4_repetition_bounds_counterexample :
    generateFromRegexp 10 (fun _ => 3) (.opRepeat 15 (-1) [.opLiteral [97]]) 0 =
      some (List.replicate 18 97, 1) ∧
    ¬ ((18 : Nat) ≤ 10) := by
  constructor
  · have h1 : Int.tmod 3 (-4) = 3 := by decide
    have h2 : Int.toNat 18 = 18 := by decide
    norm_num [generateFromRegexp, generateFromSubexpression, genPasses, genOnePass,
      randInt, h1, h2]
    decide
  · decide

/-- C4 (amended): with a positive cap and a contract-respecting source,
the count handed to `generateFromSubexpression` is within the per-operator
bounds: Star in [0, cap], Plus in [1, cap], Quest in [0, 1], and an
unbounded Repeat whose minimum is at most the cap in [min, cap]. -/
theorem c4_repetition_bounds {limit : Int} {src : Nat → Int} {k : Nat}
    (hsrc : ∀ i, 0 ≤ src i) (hlim : 1 ≤ limit) :
    (∀ subs, ∃ c : Int, 0 ≤ c ∧ c ≤ limit ∧
      generateFromRegexp limit src (.opStar subs) k =
        generateFromSubexpression limit src subs c (k + 1)) ∧
    (∀ subs, ∃ c : Int, 1 ≤ c ∧ c ≤ limit ∧
      generateFromRegexp limit src (.opPlus subs) k =
        generateFromSubexpression limit src subs c (k + 1)) ∧
    (∀ subs, ∃ c : Int, 0 ≤ c ∧ c ≤ 1 ∧
      generateFromRegexp limit src (.opQuest subs) k =
        generateFromSubexpression limit src subs c (k + 1)) ∧
    (∀ subs (mi : Int), 0 ≤ mi → mi ≤ limit →
      ∃ c : Int, mi ≤ c ∧ c ≤ limit ∧
      generateFromRegexp limit src (.opRepeat mi (-1) subs) k =
        generateFromSubexpression limit src subs c (k + 1)) := by
  refine ⟨?_, ?_, ?_, ?_⟩
  · intro subs
    have hz : limit + 1 ≠ 0 := by omega
    refine ⟨Int.tmod (src k) (limit + 1), Int.tmod_nonneg _ (hsrc k), ?_, ?_⟩
    · have := tmod_lt_natAbs (src k) hz
      rw [Int.natAbs_of_nonneg (by omega)] at this
      omega
    · simp only [generateFromRegexp, randInt_some hz]
  · intro subs
    have hz : limit ≠ 0 := by omega
    refine ⟨Int.tmod (src k) limit + 1, by have := Int.tmod_nonneg limit (hsrc k); omega,
      ?_, ?_⟩
    · have := tmod_lt_natAbs (src k) hz
      rw [Int.natAbs_of_nonneg (by omega)] at this
      omega
    · simp only [generateFromRegexp, randInt_some hz]
  · intro subs
    have hz : (2 : Int) ≠ 0 := by omega
    refine ⟨Int.tmod (src k) 2, Int.tmod_nonneg _ (hsrc k), ?_, ?_⟩
    · have := tmod_lt_natAbs (src k) hz
      have h2 : (((2 : Int).natAbs : Int)) = 2 := by decide
      omega
    · simp only [generateFromRegexp, randInt_some hz]
  · intro subs mi hmi0 hmile
    have hz : limit - mi + 1 ≠ 0 := by omega
    refine ⟨Int.tmod (src k) (limit - mi + 1) + mi,
      by have := Int.tmod_nonneg (limit - mi + 1) (hsrc k); omega, ?_, ?_⟩
    · have := tmod_lt_natAbs (src k) hz
      rw [Int.natAbs_of_nonneg (by omega)] at this
      omega
    · simp only [generateFromRegexp, if_true, ite_true, eq_self_iff_true, randInt_some hz]

/-- Witness for the amended C4 at cap 10, source constantly 7, start 0. -/
theorem c4_repetition_bounds_witness :
    (∀ i : Nat, 0 ≤ (fun _ : Nat => (7 : Int)) i) ∧ (1 : Int) ≤ 10 ∧
    ((∀ subs, ∃ c : Int, 0 ≤ c ∧ c ≤ 10 ∧
      generateFromRegexp 10 (fun _ => 7) (.opStar subs) 0 =
        generateFromSubexpression 10 (fun _ => 7) subs c 1) ∧
    (∀ subs, ∃ c : Int, 1 ≤ c ∧ c ≤ 10 ∧
      generateFromRegexp 10 (fun _ => 7) (.opPlus subs) 0 =
        generateFromSubexpression 10 (fun _ => 7) subs c 1) ∧
    (∀ subs, ∃ c : Int, 0 ≤ c ∧ c ≤ 1 ∧
      generateFromRegexp 10 (fun _ => 7) (.opQuest subs) 0 =
        generateFromSubexpression 10 (fun _ => 7) subs c 1) ∧
    (∀ subs (mi : Int), 0 ≤ mi → mi ≤ 10 →
      ∃ c : Int, mi ≤ c ∧ c ≤ 10 ∧
      generateFromRegexp 10 (fun _ => 7) (.opRepeat mi (-1) subs) 0 =
        generateFromSubexpression 10 (fun _ => 7) subs c 1)) :=
  ⟨fun _ => (by decide : (0 : Int) ≤ 7), by decide,
    c4_repetition_bounds (fun _ => (by decide : (0 : Int) ≤ 7)) (by decide)⟩

/-- C5 (code evaluated at the failing input): the pattern "a{11,}" parses
to Repeat Min 11 Max -1; `NewXeger` with no options accepts it and sets
the default cap 10, but `Generate` then computes randInt(10 - 11 + 1) =
randInt(0), an integer division by zero — a runtime panic (`none`),
contradicting the claim that generation never fails. -/
theorem c5_generate_panics :
    NewXeger (.ok (.opRepeat 11 (-1) [.opLiteral [97]])) (fun _ => 0) [] =
      .ok ⟨.opRepeat 11 (-1) [.opLiteral [97]], some (fun _ => 0), 10⟩ ∧
    Generate ⟨.opRepeat 11 (-1) [.opLiteral [97]], some (fun _ => 0), 10⟩ 0 = none := by
  constructor
  · rfl
  · norm_num [Generate, generateFromRegexp, randInt]

/-- C7 (confirmed): for a positive bound and a source value in the
`Int63` range, `randInt` succeeds, is computed as the modulo reduction of
the wide value, and lands in [0, n). -/
theorem c7_randInt_range {v n : Int} (hv0 : 0 ≤ v) (_hvlt : v < 2 ^ 63) (hn : 0 < n) :
    randInt v n = some (Int.tmod v n) ∧ 0 ≤ Int.tmod v n ∧ Int.tmod v n < n :=
  ⟨randInt_some (by omega), Int.tmod_nonneg n hv0, Int.tmod_lt_of_pos v hn⟩

/-- Witness for C7 at v = 5, n = 3. -/
theorem c7_randInt_range_witness :
    (0 : Int) ≤ 5 ∧ (5 : Int) < 2 ^ 63 ∧ (0 : Int) < 3 ∧
    (randInt 5 3 = some (Int.tmod 5 3) ∧ 0 ≤ Int.tmod 5 3 ∧ Int.tmod 5 3 < 3) :=
  ⟨by decide, by norm_num, by decide, c7_randInt_range (by decide) (by norm_num) (by decide)⟩

theorem sumSpec_pos {rs : List Nat} (hok : classOk rs = true) (hne : rs ≠ []) :
    0 < sumSpec rs := by
  cases rs with
  | nil => exact absurd rfl hne
  | cons lo t =>
    cases t with
    | nil => simp [classOk] at hok
    | cons hi rest =>
      simp only [classOk, Bool.and_eq_true, decide_eq_true_eq] at hok
      have := sumSpec_nonneg hok.2
      simp only [sumSpec]
      omega

/-- C9 (confirmed): for a well-shaped non-empty class and a
contract-respecting source value, the CharClass arm always returns through
the range-walking loop with a single character that lies inside one of the
ranges — the trailing empty-string fallback is never taken. -/
theorem c9_charclass_no_fallthrough {rs : List Nat} {limit : Int} {src : Nat → Int}
    {k : Nat} (hok : classOk rs = true) (hne : rs ≠ []) (hsrc : 0 ≤ src k) :
    ∃ c, generateFromRegexp limit src (.opCharClass rs) k = some ([c], k + 1) ∧
      memClass rs c = true := by
  have hpos := sumSpec_pos hok hne
  have hz : sumSpec rs ≠ 0 := by omega
  have h0 : 0 ≤ Int.tmod (src k) (sumSpec rs) := Int.tmod_nonneg _ hsrc
  have hlt : Int.tmod (src k) (sumSpec rs) < sumSpec rs := by
    have := tmod_lt_natAbs (src k) hz
    rw [Int.natAbs_of_nonneg (by omega)] at this
    exact this
  obtain ⟨c, hp, hmem⟩ := charClassPick_some hok h0 hlt
  refine ⟨c, ?_, hmem⟩
  simp only [generateFromRegexp, classSum_eq_sumSpec hok, randInt_some hz, hp]

/-- Witness for C9 at the class [0-9] with source value 7: emits the digit
55 ("7"). -/
theorem c9_charclass_no_fallthrough_witness :
    classOk [48, 57] = true ∧ ([48, 57] : List Nat) ≠ [] ∧ (0 : Int) ≤ 7 ∧
    (∃ c, generateFromRegexp 10 (fun _ => 7) (.opCharClass [48, 57]) 0 =
      some ([c], 1) ∧ memClass [48, 57] c = true) :=
  ⟨by decide, by decide, by decide,
    c9_charclass_no_fallthrough (by decide) (by decide) (by decide)⟩

/-- C3 (confirmed): for a normalized class (what the parser produces), the
code's `sum` is the spec's total of (high - low + 1) over the ranges;
every index in [0, sum) makes the walking loop emit a code point inside
one of the ranges; and each code point of the class is hit by exactly one
index in [0, sum), so a uniform draw of the index yields a uniform choice
over exactly the class's code points. -/
theorem c3_charclass_uniform {rs : List Nat} (hs : classSorted rs = true) :
    classSum rs = some (sumSpec rs) ∧
    (∀ idx : Int, 0 ≤ idx → idx < sumSpec rs →
      ∃ c, charClassPick rs idx = some c ∧ memClass rs c = true) ∧
    (∀ c, memClass rs c = true →
      ∃! idx : Int, 0 ≤ idx ∧ idx < sumSpec rs ∧ charClassPick rs idx = some c) := by
  have hok := classOk_of_sorted hs
  exact ⟨classSum_eq_sumSpec hok,
    fun idx h0 hlt => charClassPick_some hok h0 hlt,
    fun c hm => charClassPick_unique hs hm⟩

/-- Monotonicity statement: the next unconsumed source index never
decreases across a node. -/
def MonoRe (re : Regexp) : Prop :=
  ∀ (limit : Int) (src : Nat → Int) (k : Nat) (out : List Nat) (k1 : Nat),
    generateFromRegexp limit src re k = some (out, k1) → k ≤ k1

/-- Monotonicity statement for one pass over a child list. -/
def MonoList (subs : List Regexp) : Prop :=
  ∀ (limit : Int) (src : Nat → Int) (k : Nat) (out : List Nat) (k1 : Nat),
    genOnePass limit src subs k = some (out, k1) → k ≤ k1

/-- Monotonicity statement for repeated passes. -/
def MonoPasses (subs : List Regexp) : Prop :=
  ∀ (count : Nat) (limit : Int) (src : Nat → Int) (k : Nat) (out : List Nat) (k1 : Nat),
    genPasses limit src subs count k = some (out, k1) → k ≤ k1

/-- Monotonicity statement for `generateFromSubexpression`. -/
def MonoSub (subs : List Regexp) : Prop :=
  ∀ (count : Int) (limit : Int) (src : Nat → Int) (k : Nat) (out : List Nat) (k1 : Nat),
    generateFromSubexpression limit src subs count k = some (out, k1) → k ≤ k1

theorem mono_onePass (n : Nat) (ih : ∀ re, sizeOf re < n → MonoRe re) :
    ∀ subs, sizeOf subs ≤ n → MonoList subs := by
  intro subs
  induction subs with
  | nil =>
    intro _ limit src k out k1 hgen
    simp only [genOnePass, Option.some.injEq, Prod.mk.injEq] at hgen
    omega
  | cons sub rest ihr =>
    intro hsz limit src k out k1 hgen
    have hsub : sizeOf sub < n := by
      have : sizeOf (sub :: rest) = 1 + sizeOf sub + sizeOf rest := by simp
      omega
    have hrest : sizeOf rest ≤ n := by
      have : sizeOf (sub :: rest) = 1 + sizeOf sub + sizeOf rest := by simp
      omega
    simp only [genOnePass] at hgen
    split at hgen
    · exact absurd hgen (by simp)
    next o1 k2 hg1 =>
      split at hgen
      · exact absurd hgen (by simp)
      next o2 k3 hg2 =>
        simp only [Option.some.injEq, Prod.mk.injEq] at hgen
        have h1 := ih sub hsub limit src k o1 k2 hg1
        have h2 := ihr hrest limit src k2 o2 k3 hg2
        omega

theorem mono_passes (n : Nat) (ih : ∀ re, sizeOf re < n → MonoRe re) :
    ∀ subs, sizeOf subs ≤ n → MonoPasses subs := by
  intro subs hsz count
  induction count with
  | zero =>
    intro limit src k out k1 hgen
    simp only [genPasses, Option.some.injEq, Prod.mk.injEq] at hgen
    omega
  | succ c ihc =>
    intro limit src k out k1 hgen
    simp only [genPasses] at hgen
    split at hgen
    · exact absurd hgen (by simp)
    next o1 k2 hg1 =>
      split at hgen
      · exact absurd hgen (by simp)
      next o2 k3 hg2 =>
        simp only [Option.some.injEq, Prod.mk.injEq] at hgen
        have h1 := mono_onePass n ih subs hsz limit src k o1 k2 hg1
        have h2 := ihc limit src k2 o2 k3 hg2
        omega

theorem mono_subexpr (n : Nat) (ih : ∀ re, sizeOf re < n → MonoRe re) :
    ∀ subs, sizeOf subs ≤ n → MonoSub subs := by
  intro subs hsz count limit src k out k1 hgen
  simp only [generateFromSubexpression] at hgen
  split at hgen
  · exact absurd hgen (by simp)
  · exact mono_passes n ih subs hsz count.toNat limit src k out k1 hgen

theorem mono_re_aux : ∀ (n : Nat) (re : Regexp), sizeOf re < n → MonoRe re := by
  intro n
  induction n with
  | zero => intro re h; omega
  | succ n ih =>
    intro re hsz limit src k out k1 hgen
    cases re with
    | opLiteral rs =>
      simp only [generateFromRegexp, Option.some.injEq, Prod.mk.injEq] at hgen
      omega
    | opCharClass rs =>
      simp only [generateFromRegexp] at hgen
      split at hgen
      · exact absurd hgen (by simp)
      split at hgen
      · exact absurd hgen (by simp)
      split at hgen <;>
        (simp only [Option.some.injEq, Prod.mk.injEq] at hgen; omega)
    | opAnyCharNotNL =>
      simp only [generateFromRegexp] at hgen
      split at hgen
      · exact absurd hgen (by simp)
      split at hgen
      · exact absurd hgen (by simp)
      simp only [Option.some.injEq, Prod.mk.injEq] at hgen
      omega
    | opAnyChar =>
      simp only [generateFromRegexp] at hgen
      split at hgen
      · exact absurd hgen (by simp)
      split at hgen
      · exact absurd hgen (by simp)
      simp only [Option.some.injEq, Prod.mk.injEq] at hgen
      omega
    | opCapture subs =>
      simp only [generateFromRegexp] at hgen
      have hsub : sizeOf subs ≤ n := by
        simp only [Regexp.opCapture.sizeOf_spec] at hsz
        omega
      exact mono_subexpr n ih subs hsub 1 limit src k out k1 hgen
    | opStar subs =>
      simp only [generateFromRegexp] at hgen
      have hsub : sizeOf subs ≤ n := by
        simp only [Regexp.opStar.sizeOf_spec] at hsz
        omega
      split at hgen
      · exact absurd hgen (by simp)
      next c hrc =>
        have := mono_subexpr n ih subs hsub c limit src (k + 1) out k1 hgen
        omega
    | opPlus subs =>
      simp only [generateFromRegexp] at hgen
      have hsub : sizeOf subs ≤ n := by
        simp only [Regexp.opPlus.sizeOf_spec] at hsz
        omega
      split at hgen
      · exact absurd hgen (by simp)
      next c hrc =>
        have := mono_subexpr n ih subs hsub (c + 1) limit src (k + 1) out k1 hgen
        omega
    | opQuest subs =>
      simp only [generateFromRegexp] at hgen
      have hsub : sizeOf subs ≤ n := by
        simp only [Regexp.opQuest.sizeOf_spec] at hsz
        omega
      split at hgen
      · exact absurd hgen (by simp)
      next c hrc =>
        have := mono_subexpr n ih subs hsub c limit src (k + 1) out k1 hgen
        omega
    | opRepeat mi ma subs =>
      simp only [generateFromRegexp] at hgen
      have hsub : sizeOf subs ≤ n := by
        simp only [Regexp.opRepeat.sizeOf_spec] at hsz
        omega
      split at hgen
      · exact absurd hgen (by simp)
      next c hrc =>
        have := mono_subexpr n ih subs hsub (c + mi) limit src (k + 1) out k1 hgen
        omega
    | opConcat subs =>
      simp only [generateFromRegexp] at hgen
      have hsub : sizeOf subs ≤ n := by
        simp only [Regexp.opConcat.sizeOf_spec] at hsz
        omega
      exact mono_subexpr n ih subs hsub 1 limit src k out k1 hgen
    | opAlternate subs =>
      simp only [generateFromRegexp] at hgen
      split at hgen
      · exact absurd hgen (by simp)
      next idx hridx =>
        split at hgen
        · exact absurd hgen (by simp)
        next sub hsome =>
          have hmem := List.getElem?_mem hsome
          have hszsub : sizeOf sub < n := by
            have h1 := List.sizeOf_lt_of_mem hmem
            simp only [Regexp.opAlternate.sizeOf_spec] at hsz
            omega
          have := ih sub hszsub limit src (k + 1) out k1 hgen
          omega
    | opEmptyMatch =>
      simp only [generateFromRegexp, Option.some.injEq, Prod.mk.injEq] at hgen
      omega
    | opNoMatch =>
      simp only [generateFromRegexp, Option.some.injEq, Prod.mk.injEq] at hgen
      omega
    | opBeginLine =>
      simp only [generateFromRegexp, Option.some.injEq, Prod.mk.injEq] at hgen
      omega
    | opEndLine =>
      simp only [generateFromRegexp, Option.some.injEq, Prod.mk.injEq] at hgen
      omega
    | opBeginText =>
      simp only [generateFromRegexp, Option.some.injEq, Prod.mk.injEq] at hgen
      omega
    | opEndText =>
      simp only [generateFromRegexp, Option.some.injEq, Prod.mk.injEq] at hgen
      omega
    | opWordBoundary =>
      simp only [generateFromRegexp, Option.some.injEq, Prod.mk.injEq] at hgen
      omega
    | opNoWordBoundary =>
      simp only [generateFromRegexp, Option.some.injEq, Prod.mk.injEq] at hgen
      omega

theorem genRe_mono (re : Regexp) : MonoRe re :=
  mono_re_aux (sizeOf re + 1) re (by omega)

theorem genOnePass_mono (subs : List Regexp) : MonoList subs :=
  mono_onePass (sizeOf subs) (fun re _ => genRe_mono re) subs (le_refl _)

theorem genPasses_mono (subs : List Regexp) : MonoPasses subs :=
  mono_passes (sizeOf subs) (fun re _ => genRe_mono re) subs (le_refl _)

theorem genSubexpr_mono (subs : List Regexp) : MonoSub subs :=
  mono_subexpr (sizeOf subs) (fun re _ => genRe_mono re) subs (le_refl _)

/-- Determinism statement: two sources that agree on every index from `k`
on (the only ones the walk can consult) produce identical results. -/
def DetRe (re : Regexp) : Prop :=
  ∀ (limit : Int) (src1 src2 : Nat → Int) (k : Nat),
    (∀ i, k ≤ i → src1 i = src2 i) →
    generateFromRegexp limit src1 re k = generateFromRegexp limit src2 re k

/-- Determinism statement for one pass over a child list. -/
def DetList (subs : List Regexp) : Prop :=
  ∀ (limit : Int) (src1 src2 : Nat → Int) (k : Nat),
    (∀ i, k ≤ i → src1 i = src2 i) →
    genOnePass limit src1 subs k = genOnePass limit src2 subs k

/-- Determinism statement for repeated passes. -/
def DetPasses (subs : List Regexp) : Prop :=
  ∀ (count : Nat) (limit : Int) (src1 src2 : Nat → Int) (k : Nat),
    (∀ i, k ≤ i → src1 i = src2 i) →
    genPasses limit src1 subs count k = genPasses limit src2 subs count k

/-- Determinism statement for `generateFromSubexpression`. -/
def DetSub (subs : List Regexp) : Prop :=
  ∀ (count : Int) (limit : Int) (src1 src2 : Nat → Int) (k : Nat),
    (∀ i, k ≤ i → src1 i = src2 i) →
    generateFromSubexpression limit src1 subs count k =
      generateFromSubexpression limit src2 subs count k

theorem det_onePass (n : Nat) (ih : ∀ re, sizeOf re < n → DetRe re) :
    ∀ subs, sizeOf subs ≤ n → DetList subs := by
  intro subs
  induction subs with
  | nil => intro _ limit src1 src2 k hag; simp only [genOnePass]
  | cons sub rest ihr =>
    intro hsz limit src1 src2 k hag
    have hsub : sizeOf sub < n := by
      have : sizeOf (sub :: rest) = 1 + sizeOf sub + sizeOf rest := by simp
      omega
    have hrest : sizeOf rest ≤ n := by
      have : sizeOf (sub :: rest) = 1 + sizeOf sub + sizeOf rest := by simp
      omega
    have heq1 := ih sub hsub limit src1 src2 k hag
    simp only [genOnePass, heq1]
    cases hg : generateFromRegexp limit src2 sub k with
    | none => rfl
    | some p =>
      obtain ⟨o1, k2⟩ := p
      have hk2 : k ≤ k2 := genRe_mono sub limit src2 k o1 k2 hg
      have heq2 := ihr hrest limit src1 src2 k2 (fun i hi => hag i (le_trans hk2 hi))
      simp only [heq2]

theorem det_passes (n : Nat) (ih : ∀ re, sizeOf re < n → DetRe re) :
    ∀ subs, sizeOf subs ≤ n → DetPasses subs := by
  intro subs hsz count
  induction count with
  | zero => intro limit src1 src2 k hag; simp only [genPasses]
  | succ c ihc =>
    intro limit src1 src2 k hag
    have heq1 := det_onePass n ih subs hsz limit src1 src2 k hag
    simp only [genPasses, heq1]
    cases hg : genOnePass limit src2 subs k with
    | none => rfl
    | some p =>
      obtain ⟨o1, k2⟩ := p
      have hk2 : k ≤ k2 := genOnePass_mono subs limit src2 k o1 k2 hg
      have heq2 := ihc limit src1 src2 k2 (fun i hi => hag i (le_trans hk2 hi))
      simp only [heq2]

theorem det_subexpr (n : Nat) (ih : ∀ re, sizeOf re < n → DetRe re) :
    ∀ subs, sizeOf subs ≤ n → DetSub subs := by
  intro subs hsz count limit src1 src2 k hag
  simp only [generateFromSubexpression]
  split
  · rfl
  · exact det_passes n ih subs hsz count.toNat limit src1 src2 k hag

theorem det_re_aux : ∀ (n : Nat) (re : Regexp), sizeOf re < n → DetRe re := by
  intro n
  induction n with
  | zero => intro re h; omega
  | succ n ih =>
    intro re hsz limit src1 src2 k hag
    have hk := hag k (le_refl k)
    have hag1 : ∀ i, k + 1 ≤ i → src1 i = src2 i := fun i hi => hag i (by omega)
    cases re with
    | opLiteral rs => simp only [generateFromRegexp]
    | opCharClass rs => simp only [generateFromRegexp, hk]
    | opAnyCharNotNL => simp only [generateFromRegexp, hk]
    | opAnyChar => simp only [generateFromRegexp, hk]
    | opCapture subs =>
      have hsub : sizeOf subs ≤ n := by
        simp only [Regexp.opCapture.sizeOf_spec] at hsz
        omega
      simp only [generateFromRegexp]
      exact det_subexpr n ih subs hsub 1 limit src1 src2 k hag
    | opStar subs =>
      have hsub : sizeOf subs ≤ n := by
        simp only [Regexp.opStar.sizeOf_spec] at hsz
        omega
      simp only [generateFromRegexp, hk]
      cases hr : randInt (src2 k) (limit + 1) with
      | none => rfl
      | some c => exact det_subexpr n ih subs hsub c limit src1 src2 (k + 1) hag1
    | opPlus subs =>
      have hsub : sizeOf subs ≤ n := by
        simp only [Regexp.opPlus.sizeOf_spec] at hsz
        omega
      simp only [generateFromRegexp, hk]
      cases hr : randInt (src2 k) limit with
      | none => rfl
      | some c => exact det_subexpr n ih subs hsub (c + 1) limit src1 src2 (k + 1) hag1
    | opQuest subs =>
      have hsub : sizeOf subs ≤ n := by
        simp only [Regexp.opQuest.sizeOf_spec] at hsz
        omega
      simp only [generateFromRegexp, hk]
      cases hr : randInt (src2 k) 2 with
      | none => rfl
      | some c => exact det_subexpr n ih subs hsub c limit src1 src2 (k + 1) hag1
    | opRepeat mi ma subs =>
      have hsub : sizeOf subs ≤ n := by
        simp only [Regexp.opRepeat.sizeOf_spec] at hsz
        omega
      simp only [generateFromRegexp, hk]
      cases hr : randInt (src2 k) ((if ma = -1 then limit else ma) - mi + 1) with
      | none => rfl
      | some c =>
        exact det_subexpr n ih subs hsub (c + mi) limit src1 src2 (k + 1) hag1
    | opConcat subs =>
      have hsub : sizeOf subs ≤ n := by
        simp only [Regexp.opConcat.sizeOf_spec] at hsz
        omega
      simp only [generateFromRegexp]
      exact det_subexpr n ih subs hsub 1 limit src1 src2 k hag
    | opAlternate subs =>
      simp only [generateFromRegexp, hk]
      split
      · rfl
      split
      · rfl
      next sub hs =>
        have hmem := List.getElem?_mem hs
        have hszsub : sizeOf sub < n := by
          have h1 := List.sizeOf_lt_of_mem hmem
          simp only [Regexp.opAlternate.sizeOf_spec] at hsz
          omega
        exact ih sub hszsub limit src1 src2 (k + 1) hag1
    | opEmptyMatch => simp only [generateFromRegexp]
    | opNoMatch => simp only [generateFromRegexp]
    | opBeginLine => simp only [generateFromRegexp]
    | opEndLine => simp only [generateFromRegexp]
    | opBeginText => simp only [generateFromRegexp]
    | opEndText => simp only [generateFromRegexp]
    | opWordBoundary => simp only [generateFromRegexp]
    | opNoWordBoundary => simp only [generateFromRegexp]

theorem genRe_det (re : Regexp) : DetRe re :=
  det_re_aux (sizeOf re + 1) re (by omega)

theorem maxLen_le_maxLenMax {limit : Int} : ∀ {subs : List Regexp} {r : Regexp},
    r ∈ subs → maxLen limit r ≤ maxLenMax limit subs := by
  intro subs
  induction subs with
  | nil => intro r hm; cases hm
  | cons a t ih =>
    intro r hm
    cases hm with
    | head => exact Nat.le_max_left _ _
    | tail _ hm2 => exact le_trans (ih hm2) (Nat.le_max_right _ _)

/-- Boundedness statement: any output of a node is no longer than the
static bound `maxLen`. -/
def BoundRe (re : Regexp) : Prop :=
  ∀ (limit : Int) (src : Nat → Int) (k : Nat) (out : List Nat) (k1 : Nat),
    generateFromRegexp limit src re k = some (out, k1) →
    out.length ≤ maxLen limit re

/-- Boundedness statement for one pass over a child list. -/
def BoundList (subs : List Regexp) : Prop :=
  ∀ (limit : Int) (src : Nat → Int) (k : Nat) (out : List Nat) (k1 : Nat),
    genOnePass limit src subs k = some (out, k1) →
    out.length ≤ maxLenSum limit subs

/-- Boundedness statement for repeated passes. -/
def BoundPasses (subs : List Regexp) : Prop :=
  ∀ (count : Nat) (limit : Int) (src : Nat → Int) (k : Nat) (out : List Nat) (k1 : Nat),
    genPasses limit src subs count k = some (out, k1) →
    out.length ≤ count * maxLenSum limit subs

/-- Boundedness statement for `generateFromSubexpression`. -/
def BoundSub (subs : List Regexp) : Prop :=
  ∀ (count : Int) (limit : Int) (src : Nat → Int) (k : Nat) (out : List Nat) (k1 : Nat),
    generateFromSubexpression limit src subs count k = some (out, k1) →
    out.length ≤ count.toNat * maxLenSum limit subs

theorem bound_onePass (n : Nat) (ih : ∀ re, sizeOf re < n → BoundRe re) :
    ∀ subs, sizeOf subs ≤ n → BoundList subs := by
  intro subs
  induction subs with
  | nil =>
    intro _ limit src k out k1 hgen
    simp only [genOnePass, Option.some.injEq, Prod.mk.injEq] at hgen
    obtain ⟨h1, _⟩ := hgen
    subst h1
    simp [maxLenSum]
  | cons sub rest ihr =>
    intro hsz limit src k out k1 hgen
    have hsub : sizeOf sub < n := by
      have : sizeOf (sub :: rest) = 1 + sizeOf sub + sizeOf rest := by simp
      omega
    have hrest : sizeOf rest ≤ n := by
      have : sizeOf (sub :: rest) = 1 + sizeOf sub + sizeOf rest := by simp
      omega
    simp only [genOnePass] at hgen
    split at hgen
    · exact absurd hgen (by simp)
    next o1 k2 hg1 =>
      split at hgen
      · exact absurd hgen (by simp)
      next o2 k3 hg2 =>
        simp only [Option.some.injEq, Prod.mk.injEq] at hgen
        obtain ⟨h1, _⟩ := hgen
        subst h1
        have b1 := ih sub hsub limit src k o1 k2 hg1
        have b2 := ihr hrest limit src k2 o2 k3 hg2
        simp only [maxLenSum, List.length_append]
        omega

theorem bound_passes (n : Nat) (ih : ∀ re, sizeOf re < n → BoundRe re) :
    ∀ subs, sizeOf subs ≤ n → BoundPasses subs := by
  intro subs hsz count
  induction count with
  | zero =>
    intro limit src k out k1 hgen
    simp only [genPasses, Option.some.injEq, Prod.mk.injEq] at hgen
    obtain ⟨h1, _⟩ := hgen
    subst h1
    simp
  | succ c ihc =>
    intro limit src k out k1 hgen
    simp only [genPasses] at hgen
    split at hgen
    · exact absurd hgen (by simp)
    next o1 k2 hg1 =>
      split at hgen
      · exact absurd hgen (by simp)
      next o2 k3 hg2 =>
        simp only [Option.some.injEq, Prod.mk.injEq] at hgen
        obtain ⟨h1, _⟩ := hgen
        subst h1
        have b1 := bound_onePass n ih subs hsz limit src k o1 k2 hg1
        have b2 := ihc limit src k2 o2 k3 hg2
        simp only [List.length_append, Nat.succ_mul]
        omega

theorem bound_subexpr (n : Nat) (ih : ∀ re, sizeOf re < n → BoundRe re) :
    ∀ subs, sizeOf subs ≤ n → BoundSub subs := by
  intro subs hsz count limit src k out k1 hgen
  simp only [generateFromSubexpression] at hgen
  split at hgen
  · exact absurd hgen (by simp)
  · exact bound_passes n ih subs hsz count.toNat limit src k out k1 hgen

theorem bound_re_aux : ∀ (n : Nat) (re : Regexp), sizeOf re < n → BoundRe re := by
  intro n
  induction n with
  | zero => intro re h; omega
  | succ n ih =>
    intro re hsz limit src k out k1 hgen
    cases re with
    | opLiteral rs =>
      simp only [generateFromRegexp, Option.some.injEq, Prod.mk.injEq] at hgen
      obtain ⟨h1, _⟩ := hgen
      subst h1
      simp [maxLen]
    | opCharClass rs =>
      simp only [generateFromRegexp] at hgen
      split at hgen
      · exact absurd hgen (by simp)
      split at hgen
      · exact absurd hgen (by simp)
      split at hgen <;>
        (simp only [Option.some.injEq, Prod.mk.injEq] at hgen
         obtain ⟨h1, _⟩ := hgen
         subst h1
         simp [maxLen])
    | opAnyCharNotNL =>
      simp only [generateFromRegexp] at hgen
      split at hgen
      · exact absurd hgen (by simp)
      split at hgen
      · exact absurd hgen (by simp)
      simp only [Option.some.injEq, Prod.mk.injEq] at hgen
      obtain ⟨h1, _⟩ := hgen
      subst h1
      simp [maxLen]
    | opAnyChar =>
      simp only [generateFromRegexp] at hgen
      split at hgen
      · exact absurd hgen (by simp)
      split at hgen
      · exact absurd hgen (by simp)
      simp only [Option.some.injEq, Prod.mk.injEq] at hgen
      obtain ⟨h1, _⟩ := hgen
      subst h1
      simp [maxLen]
    | opCapture subs =>
      simp only [generateFromRegexp] at hgen
      have hsub : sizeOf subs ≤ n := by
        simp only [Regexp.opCapture.sizeOf_spec] at hsz
        omega
      have := bound_subexpr n ih subs hsub 1 limit src k out k1 hgen
      simpa [maxLen] using this
    | opStar subs =>
      simp only [generateFromRegexp] at hgen
      have hsub : sizeOf subs ≤ n := by
        simp only [Regexp.opStar.sizeOf_spec] at hsz
        omega
      split at hgen
      · exact absurd hgen (by simp)
      next c hrc =>
        obtain ⟨hz, rfl⟩ := randInt_eq_some hrc
        have hb := bound_subexpr n ih subs hsub _ limit src (k + 1) out k1 hgen
        have hlt := tmod_lt_natAbs (src k) hz
        simp only [maxLen]
        have hc : (Int.tmod (src k) (limit + 1)).toNat ≤ (limit + 1).natAbs := by omega
        calc out.length ≤ (Int.tmod (src k) (limit + 1)).toNat * maxLenSum limit subs := hb
          _ ≤ (limit + 1).natAbs * maxLenSum limit subs :=
            Nat.mul_le_mul_right _ hc
    | opPlus subs =>
      simp only [generateFromRegexp] at hgen
      have hsub : sizeOf subs ≤ n := by
        simp only [Regexp.opPlus.sizeOf_spec] at hsz
        omega
      split at hgen
      · exact absurd hgen (by simp)
      next c hrc =>
        obtain ⟨hz, rfl⟩ := randInt_eq_some hrc
        have hb := bound_subexpr n ih subs hsub _ limit src (k + 1) out k1 hgen
        have hlt := tmod_lt_natAbs (src k) hz
        simp only [maxLen]
        have hc : (Int.tmod (src k) limit + 1).toNat ≤ limit.natAbs := by omega
        calc out.length ≤ (Int.tmod (src k) limit + 1).toNat * maxLenSum limit subs := hb
          _ ≤ limit.natAbs * maxLenSum limit subs := Nat.mul_le_mul_right _ hc
    | opQuest subs =>
      simp only [generateFromRegexp] at hgen
      have hsub : sizeOf subs ≤ n := by
        simp only [Regexp.opQuest.sizeOf_spec] at hsz
        omega
      split at hgen
      · exact absurd hgen (by simp)
      next c hrc =>
        obtain ⟨hz, rfl⟩ := randInt_eq_some hrc
        have hb := bound_subexpr n ih subs hsub _ limit src (k + 1) out k1 hgen
        have hlt := tmod_lt_natAbs (src k) hz
        have h2 : (((2 : Int).natAbs : Int)) = 2 := by decide
        simp only [maxLen]
        have hc : (Int.tmod (src k) 2).toNat ≤ 1 := by omega
        calc out.length ≤ (Int.tmod (src k) 2).toNat * maxLenSum limit subs := hb
          _ ≤ 1 * maxLenSum limit subs := Nat.mul_le_mul_right _ hc
          _ = maxLenSum limit subs := Nat.one_mul _
    | opRepeat mi ma subs =>
      simp only [generateFromRegexp] at hgen
      have hsub : sizeOf subs ≤ n := by
        simp only [Regexp.opRepeat.sizeOf_spec] at hsz
        omega
      split at hgen
      · exact absurd hgen (by simp)
      next c hrc =>
        obtain ⟨hz, rfl⟩ := randInt_eq_some hrc
        have hb := bound_subexpr n ih subs hsub _ limit src (k + 1) out k1 hgen
        have hlt := tmod_lt_natAbs (src k) hz
        simp only [maxLen]
        have hc : (Int.tmod (src k) ((if ma = -1 then limit else ma) - mi + 1) + mi).toNat ≤
            mi.natAbs + ((if ma = -1 then limit else ma) - mi + 1).natAbs := by omega
        calc out.length ≤ _ * maxLenSum limit subs := hb
          _ ≤ (mi.natAbs + ((if ma = -1 then limit else ma) - mi + 1).natAbs) *
              maxLenSum limit subs := Nat.mul_le_mul_right _ hc
    | opConcat subs =>
      simp only [generateFromRegexp] at hgen
      have hsub : sizeOf subs ≤ n := by
        simp only [Regexp.opConcat.sizeOf_spec] at hsz
        omega
      have := bound_subexpr n ih subs hsub 1 limit src k out k1 hgen
      simpa [maxLen] using this
    | opAlternate subs =>
      simp only [generateFromRegexp] at hgen
      split at hgen
      · exact absurd hgen (by simp)
      next idx hridx =>
        split at hgen
        · exact absurd hgen (by simp)
        next sub hsome =>
          have hmem := List.getElem?_mem hsome
          have hszsub : sizeOf sub < n := by
            have h1 := List.sizeOf_lt_of_mem hmem
            simp only [Regexp.opAlternate.sizeOf_spec] at hsz
            omega
          have := ih sub hszsub limit src (k + 1) out k1 hgen
          have h2 := @maxLen_le_maxLenMax limit _ _ hmem
          simp only [maxLen]
          omega
    | opEmptyMatch =>
      simp only [generateFromRegexp, Option.some.injEq, Prod.mk.injEq] at hgen
      obtain ⟨h1, _⟩ := hgen
      subst h1
      simp [maxLen]
    | opNoMatch =>
      simp only [generateFromRegexp, Option.some.injEq, Prod.mk.injEq] at hgen
      obtain ⟨h1, _⟩ := hgen
      subst h1
      simp [maxLen]
    | opBeginLine =>
      simp only [generateFromRegexp, Option.some.injEq, Prod.mk.injEq] at hgen
      obtain ⟨h1, _⟩ := hgen
      subst h1
      simp [maxLen]
    | opEndLine =>
      simp only [generateFromRegexp, Option.some.injEq, Prod.mk.injEq] at hgen
      obtain ⟨h1, _⟩ := hgen
      subst h1
      simp [maxLen]
    | opBeginText =>
      simp only [generateFromRegexp, Option.some.injEq, Prod.mk.injEq] at hgen
      obtain ⟨h1, _⟩ := hgen
      subst h1
      simp [maxLen]
    | opEndText =>
      simp only [generateFromRegexp, Option.some.injEq, Prod.mk.injEq] at hgen
      obtain ⟨h1, _⟩ := hgen
      subst h1
      simp [maxLen]
    | opWordBoundary =>
      simp only [generateFromRegexp, Option.some.injEq, Prod.mk.injEq] at hgen
      obtain ⟨h1, _⟩ := hgen
      subst h1
      simp [maxLen]
    | opNoWordBoundary =>
      simp only [generateFromRegexp, Option.some.injEq, Prod.mk.injEq] at hgen
      obtain ⟨h1, _⟩ := hgen
      subst h1
      simp [maxLen]

theorem genRe_bound (re : Regexp) : BoundRe re :=
  bound_re_aux (sizeOf re + 1) re (by omega)

/-- Equivalence statement: the earlier implementation generates exactly
what the current one generates with limit 10. -/
def EqvRe (re : Regexp) : Prop :=
  ∀ (src : Nat → Int) (k : Nat),
    generateFromRegexpOld src re k = generateFromRegexp 10 src re k

/-- Equivalence statement for one pass over a child list. -/
def EqvList (subs : List Regexp) : Prop :=
  ∀ (src : Nat → Int) (k : Nat),
    genOnePassOld src subs k = genOnePass 10 src subs k

/-- Equivalence statement for repeated passes. -/
def EqvPasses (subs : List Regexp) : Prop :=
  ∀ (count : Nat) (src : Nat → Int) (k : Nat),
    genPassesOld src subs count k = genPasses 10 src subs count k

/-- Equivalence statement for `generateFromSubexpression`. -/
def EqvSub (subs : List Regexp) : Prop :=
  ∀ (count : Int) (src : Nat → Int) (k : Nat),
    generateFromSubexpressionOld src subs count k =
      generateFromSubexpression 10 src subs count k

theorem eqv_onePass (n : Nat) (ih : ∀ re, sizeOf re < n → EqvRe re) :
    ∀ subs, sizeOf subs ≤ n → EqvList subs := by
  intro subs
  induction subs with
  | nil => intro _ src k; simp only [genOnePassOld, genOnePass]
  | cons sub rest ihr =>
    intro hsz src k
    have hsub : sizeOf sub < n := by
      have : sizeOf (sub :: rest) = 1 + sizeOf sub + sizeOf rest := by simp
      omega
    have hrest : sizeOf rest ≤ n := by
      have : sizeOf (sub :: rest) = 1 + sizeOf sub + sizeOf rest := by simp
      omega
    have heq1 := ih sub hsub src k
    simp only [genOnePassOld, genOnePass, heq1]
    cases hg : generateFromRegexp 10 src sub k with
    | none => rfl
    | some p =>
      obtain ⟨o1, k2⟩ := p
      have heq2 := ihr hrest src k2
      simp only [heq2]

theorem eqv_passes (n : Nat) (ih : ∀ re, sizeOf re < n → EqvRe re) :
    ∀ subs, sizeOf subs ≤ n → EqvPasses subs := by
  intro subs hsz count
  induction count with
  | zero => intro src k; simp only [genPassesOld, genPasses]
  | succ c ihc =>
    intro src k
    have heq1 := eqv_onePass n ih subs hsz src k
    simp only [genPassesOld, genPasses, heq1]
    cases hg : genOnePass 10 src subs k with
    | none => rfl
    | some p =>
      obtain ⟨o1, k2⟩ := p
      have heq2 := ihc src k2
      simp only [heq2]

theorem eqv_subexpr (n : Nat) (ih : ∀ re, sizeOf re < n → EqvRe re) :
    ∀ subs, sizeOf subs ≤ n → EqvSub subs := by
  intro subs hsz count src k
  simp only [generateFromSubexpressionOld, generateFromSubexpression]
  split
  · rfl
  · exact eqv_passes n ih subs hsz count.toNat src k

theorem eqv_re_aux : ∀ (n : Nat) (re : Regexp), sizeOf re < n → EqvRe re := by
  intro n
  induction n with
  | zero => intro re h; omega
  | succ n ih =>
    intro re hsz src k
    cases re with
    | opLiteral rs => simp only [generateFromRegexpOld, generateFromRegexp]
    | opCharClass rs => simp only [generateFromRegexpOld, generateFromRegexp]
    | opAnyCharNotNL => simp only [generateFromRegexpOld, generateFromRegexp]
    | opAnyChar => simp only [generateFromRegexpOld, generateFromRegexp]
    | opCapture subs =>
      have hsub : sizeOf subs ≤ n := by
        simp only [Regexp.opCapture.sizeOf_spec] at hsz
        omega
      simp only [generateFromRegexpOld, generateFromRegexp]
      exact eqv_subexpr n ih subs hsub 1 src k
    | opStar subs =>
      have hsub : sizeOf subs ≤ n := by
        simp only [Regexp.opStar.sizeOf_spec] at hsz
        omega
      simp only [generateFromRegexpOld, generateFromRegexp]
      cases hr : randInt (src k) (10 + 1) with
      | none => rfl
      | some c => exact eqv_subexpr n ih subs hsub c src (k + 1)
    | opPlus subs =>
      have hsub : sizeOf subs ≤ n := by
        simp only [Regexp.opPlus.sizeOf_spec] at hsz
        omega
      simp only [generateFromRegexpOld, generateFromRegexp]
      cases hr : randInt (src k) 10 with
      | none => rfl
      | some c => exact eqv_subexpr n ih subs hsub (c + 1) src (k + 1)
    | opQuest subs =>
      have hsub : sizeOf subs ≤ n := by
        simp only [Regexp.opQuest.sizeOf_spec] at hsz
        omega
      simp only [generateFromRegexpOld, generateFromRegexp]
      cases hr : randInt (src k) 2 with
      | none => rfl
      | some c => exact eqv_subexpr n ih subs hsub c src (k + 1)
    | opRepeat mi ma subs =>
      have hsub : sizeOf subs ≤ n := by
        simp only [Regexp.opRepeat.sizeOf_spec] at hsz
        omega
      simp only [generateFromRegexpOld, generateFromRegexp]
      cases hr : randInt (src k) ((if ma = -1 then (10 : Int) else ma) - mi + 1) with
      | none => rfl
      | some c => exact eqv_subexpr n ih subs hsub (c + mi) src (k + 1)
    | opConcat subs =>
      have hsub : sizeOf subs ≤ n := by
        simp only [Regexp.opConcat.sizeOf_spec] at hsz
        omega
      simp only [generateFromRegexpOld, generateFromRegexp]
      exact eqv_subexpr n ih subs hsub 1 src k
    | opAlternate subs =>
      simp only [generateFromRegexpOld, generateFromRegexp]
      split
      · rfl
      split
      · rfl
      next sub hs =>
        have hmem := List.getElem?_mem hs
        have hszsub : sizeOf sub < n := by
          have h1 := List.sizeOf_lt_of_mem hmem
          simp only [Regexp.opAlternate.sizeOf_spec] at hsz
          omega
        exact ih sub hszsub src (k + 1)
    | opEmptyMatch => simp only [generateFromRegexpOld, generateFromRegexp]
    | opNoMatch => simp only [generateFromRegexpOld, generateFromRegexp]
    | opBeginLine => simp only [generateFromRegexpOld, generateFromRegexp]
    | opEndLine => simp only [generateFromRegexpOld, generateFromRegexp]
    | opBeginText => simp only [generateFromRegexpOld, generateFromRegexp]
    | opEndText => simp only [generateFromRegexpOld, generateFromRegexp]
    | opWordBoundary => simp only [generateFromRegexpOld, generateFromRegexp]
    | opNoWordBoundary => simp only [generateFromRegexpOld, generateFromRegexp]

theorem genRe_eqv (re : Regexp) : EqvRe re :=
  eqv_re_aux (sizeOf re + 1) re (by omega)

/-- C6 (confirmed): for a fixed tree and cap, two runs of `Generate`
whose sources return the same sequence of values (at every position the
run can consult) produce the same result — the walk is a pure function of
the tree, the cap and the drawn values. -/
theorem c6_determinism {re : Regexp} {limit : Int} {src1 src2 : Nat → Int} {k : Nat}
    (hag : ∀ i, k ≤ i → src1 i = src2 i) :
    Generate ⟨re, some src1, limit⟩ k = Generate ⟨re, some src2, limit⟩ k :=
  genRe_det re limit src1 src2 k hag

/-- Witness for C6 on the tree of "a?" with two syntactically different
but extensionally equal sources. -/
theorem c6_determinism_witness :
    (∀ i : Nat, 0 ≤ i → (fun _ : Nat => (1 : Int)) i = (fun _ : Nat => (1 : Int) + 0) i) ∧
    Generate ⟨.opQuest [.opLiteral [97]], some (fun _ => 1), 10⟩ 0 =
      Generate ⟨.opQuest [.opLiteral [97]], some (fun _ => (1 : Int) + 0), 10⟩ 0 :=
  ⟨fun _ _ => by norm_num, c6_determinism (fun _ _ => by norm_num)⟩

/-- C8 (confirmed): generation is total (the recursion is well-founded:
repetition counts are finite and recursive calls descend into strictly
smaller subtrees), and every successful run's output length is bounded by
the static bound `maxLen` computed from the tree and the cap alone. -/
theorem c8_bounded {re : Regexp} {limit : Int} {src : Nat → Int} {k : Nat}
    {out : List Nat} {k1 : Nat}
    (hgen : Generate ⟨re, some src, limit⟩ k = some (out, k1)) :
    out.length ≤ maxLen limit re :=
  genRe_bound re limit src k out k1 hgen

/-- Witness for C8 on the tree of "a*" with cap 10 and a source drawing 3:
the output "aaa" has length 3, within the static bound 11. -/
theorem c8_bounded_witness :
    Generate ⟨.opStar [.opLiteral [97]], some (fun _ => 3), 10⟩ 0 =
      some (List.replicate 3 97, 1) ∧
    (List.replicate 3 97).length ≤ maxLen 10 (.opStar [.opLiteral [97]]) := by
  have hg : Generate ⟨.opStar [.opLiteral [97]], some (fun _ => 3), 10⟩ 0 =
      some (List.replicate 3 97, 1) := by
    have h1 : Int.tmod 3 11 = 3 := by decide
    have h2 : Int.toNat 3 = 3 := by decide
    norm_num [Generate, generateFromRegexp, generateFromSubexpression, genPasses,
      genOnePass, randInt, h1, h2]
    decide
  exact ⟨hg, c8_bounded hg⟩

/-- C10 (confirmed): a Xeger built by `NewXeger` with default options has
the default cap 10 and the supplied default source, and on every tree and
every value sequence its `Generate` returns exactly what the earlier
implementation's `Generate` returns when the package-global source yields
the same values. -/
theorem c10_default_matches_old (re : Regexp) (dsrc : Nat → Int) :
    NewXeger (.ok re) dsrc [] = .ok ⟨re, some dsrc, defaultLimit⟩ ∧
    ∀ k, Generate ⟨re, some dsrc, defaultLimit⟩ k = GenerateOld re dsrc k := by
  refine ⟨rfl, fun k => ?_⟩
  have h := genRe_eqv re dsrc k
  simp only [Generate, GenerateOld, defaultLimit]
  exact h.symm

/-- Witness for C3 at the class [0-9a-f] (ranges 48-57 and 97-102). -/
theorem c3_charclass_uniform_witness :
    classSorted [48, 57, 97, 102] = true ∧
    (classSum [48, 57, 97, 102] = some (sumSpec [48, 57, 97, 102]) ∧
    (∀ idx : Int, 0 ≤ idx → idx < sumSpec [48, 57, 97, 102] →
      ∃ c, charClassPick [48, 57, 97, 102] idx = some c ∧
        memClass [48, 57, 97, 102] c = true) ∧
    (∀ c, memClass [48, 57, 97, 102] c = true →
      ∃! idx : Int, 0 ≤ idx ∧ idx < sumSpec [48, 57, 97, 102] ∧
        charClassPick [48, 57, 97, 102] idx = some c)) :=
  ⟨by decide, c3_charclass_uniform (by decide)⟩

end Xeger
